import Mathlib

/-!
# Verification of the exdsdevs simulation kernel

A shallow embedding, in Lean 4, of the core of the `exdsdevs` hierarchical
discrete-event (DEVS) simulation engine:

* the time algebra (`src/time.rs`),
* the per-model simulator state machine (`src/simulator.rs`),
* the root driver loop (`src/root_simulator.rs`),
* the initial-variant enumerator (`src/experiment.rs`).

Modelling conventions:

* Rust `i64` is modelled as `Int`; the arithmetic of `impl Add/Sub for Time`
  is modelled with an explicit range check on the result, matching the
  overflow panic of checked Rust arithmetic (`Except` = panic).
* `panic!`/`unwrap` failures are modelled as `Except Err` errors.
* `BTreeMap` values are modelled as association lists sorted by key
  (`compare` on `String`); iteration order is list order.
* The user-supplied behaviour (`dyn Dynamic`) is modelled as a record of
  pure functions over an abstract state type `St` and an abstract RNG type
  `Rng`, threaded exactly as the source threads `&mut StdRng`.  The
  `&mut Structure` argument of the trait methods is dropped: dynamic
  structure changes are an explicit non-goal of the engine.
* Observers only receive notifications and never touch kernel state; they
  are not modelled.  Recursive functions take a fuel argument; running out
  of fuel is a distinguished error that never occurs for adequate fuel.
-/

namespace Exdsdevs

/-! ## Time algebra (src/time.rs) -/

/-- Simulation time: a concrete `i64` instant, infinity, or the stop
sentinel, exactly as `enum Time` in `src/time.rs`. -/
inductive Time where
  | Value : Int → Time
  | Inf : Time
  | StopSim : Time
  deriving DecidableEq, Repr

namespace Time

/-- `impl Ord for Time`, `fn cmp` — the match arms in source order.  Note
that the arm `(StopSim, _) => Less` precedes `(_, StopSim) => Greater`, so
it also captures the pair `(StopSim, StopSim)`. -/
def cmp : Time → Time → Ordering
  | .Value left, .Value right => compare left right
  | .Inf, .Value _ => .gt
  | .Value _, .Inf => .lt
  | .Inf, .Inf => .eq
  | .StopSim, _ => .lt
  | _, .StopSim => .gt

/-- Rust `==` on `Time` (`impl PartialEq`, defined via `cmp`). -/
def beq (a b : Time) : Bool := a.cmp b == Ordering.eq

/-- Rust `<` on `Time` (derived from `cmp` through `partial_cmp`). -/
def lt (a b : Time) : Bool := a.cmp b == Ordering.lt

/-- Rust `<=` on `Time`. -/
def le (a b : Time) : Bool := a.cmp b != Ordering.gt

/-- Rust `>=` on `Time`. -/
def ge (a b : Time) : Bool := a.cmp b != Ordering.lt

/-- Rust `Ord::min(self, other)`: returns `other` exactly when
`other < self`. -/
def minOrd (a b : Time) : Time := if lt b a then b else a

/-- `Iterator::min().unwrap_or(Time::Inf)` over a list of times. -/
def minList (l : List Time) : Time := l.foldr minOrd .Inf

/-- Smallest `i64` value. -/
def i64Min : Int := -(2 ^ 63)

/-- Largest `i64` value. -/
def i64Max : Int := 2 ^ 63 - 1

/-- `n` is representable as an `i64`. -/
def fitsI64 (n : Int) : Bool := decide (i64Min ≤ n) && decide (n ≤ i64Max)

/-- Errors of the embedded kernel; each constructor corresponds to one
panic or `unwrap` site of the source (plus `fuelOut` for the fuel device of
the embedding). -/
inductive Err where
  /-- overflow panic of the i64 arithmetic in `impl Add/Sub for Time`. -/
  | overflow : Err
  /-- the panic "Bad synchronization in Simulator::process_x_messages()". -/
  | badSyncProcess : String → Err
  /-- the panic "DEVS ERROR: Bad synchronization in Simulator.collect_outputs()". -/
  | badSyncCollect : String → Err
  /-- the panic of `get_subsimulators(name).unwrap()` on an absent child. -/
  | missingChild : String → Err
  /-- the panic of some other `.unwrap()` on `None` (variant factory, `init_static`). -/
  | unwrapNone : String → Err
  /-- recursion fuel exhausted (an artefact of the embedding only). -/
  | fuelOut : Err
  deriving DecidableEq, Repr

/-- `impl Add for Time`, match arms in source order; the `i64` addition
`left + right` panics on overflow, modelled as an `overflow` error. -/
def add : Time → Time → Except Err Time
  | .Inf, _ => .ok .Inf
  | _, .Inf => .ok .Inf
  | .Value left, .Value right =>
      if fitsI64 (left + right) then .ok (.Value (left + right)) else .error .overflow
  | .StopSim, .StopSim => .ok .StopSim
  | .Value val, .StopSim => .ok (.Value val)
  | .StopSim, .Value val => .ok (.Value val)

/-- `impl Sub for Time`, match arms in source order; the `i64` subtraction
`left - right` panics on overflow, modelled as an `overflow` error. -/
def sub : Time → Time → Except Err Time
  | .Inf, _ => .ok .Inf
  | _, .Inf => .ok .Inf
  | .Value left, .Value right =>
      if fitsI64 (left - right) then .ok (.Value (left - right)) else .error .overflow
  | .StopSim, .StopSim => .ok .StopSim
  | .Value val, .StopSim => .ok (.Value val)
  | .StopSim, .Value val => .ok (.Value val)

end Time

end Exdsdevs

namespace Exdsdevs

/-! ## Containers (src/containers.rs) -/

/-- JSON-shaped dynamic value (`serde_json::Value`); the kernel treats it
as opaque. -/
inductive Value where
  | null : Value
  | bool : Bool → Value
  | num : Int → Value
  | str : String → Value
  | arr : List Value → Value
  | obj : List (String × Value) → Value

/-- A message: destination port plus payload (`struct Msg`). -/
structure Msg where
  port : String
  value : Value

/-- A bag — ordered sequence of messages for one model (`type Bag`). -/
abbrev Bag := List Msg

/-- One collected child output (`struct MailItem`). -/
structure MailItem where
  model_name : String
  y_bag : Bag

/-- The parent's collected child outputs (`type Mail`). -/
abbrev Mail := List MailItem

/-! ## Coupling edges (src/model.rs) -/

/-- `struct ExternalInputCoupling`. -/
structure ExternalInputCoupling where
  source_port : String
  destination_model : String
  destination_model_port : String

/-- `struct InternalCoupling`. -/
structure InternalCoupling where
  source_model : String
  source_model_port : String
  destination_model : String
  destination_model_port : String

/-- `struct ExternalOutputCoupling`. -/
structure ExternalOutputCoupling where
  source_model : String
  source_model_port : String
  destination_port : String

/-! ## Behaviour interface (src/dynamic.rs)

The object-safe trait `Dynamic` is modelled as a record of pure functions
over an abstract private state `St`; the shared `StdRng` is modelled as an
abstract `Rng` value threaded through each call in source order.  The
`&mut Structure` parameters are dropped (dynamic structure change is a
stated non-goal); `init`, `state` and `finish` are omitted because no
embedded operation reads their effect. -/
structure Dynamic (St Rng : Type) where
  internal_transition : St → Time → Rng → St × Rng
  external_transition : St → Time → Time → Bag → Rng → St × Rng
  confluent_transition : St → Time → Bag → Rng → St × Rng
  external_mail_transition : St → Time → Time → Mail → Rng → St × Rng
  time_advance : St → Rng → Time × Rng
  output : St → Time → Bag

/-! ## Simulator node (src/simulator.rs, struct Simulator)

All scalar fields of `struct Simulator` live in `SimCore`; the recursive
`sub_simulators` map of the owned `Model.structure` is the second
constructor argument of `Simulator`.  The `BTreeMap<String, Simulator>`
is an association list sorted by name; the `HashSet<String>` `imminent`
is a duplicate-free list (insertion order). -/
structure SimCore (St Rng : Type) where
  full_name : String
  dyn : Dynamic St Rng
  st : St
  init_value : Value
  external_input_couplings : List ExternalInputCoupling
  internal_couplings : List InternalCoupling
  external_output_couplings : List ExternalOutputCoupling
  imminent : List String
  mail : Mail
  t_last : Time
  t_next_self : Time
  t_next : Time

/-- A simulator node: its scalar core plus the child simulators. -/
inductive Simulator (St Rng : Type) where
  | mk : SimCore St Rng → List (String × Simulator St Rng) → Simulator St Rng

namespace Simulator

variable {St Rng : Type}

/-- The scalar fields of the node. -/
def core : Simulator St Rng → SimCore St Rng
  | .mk c _ => c

/-- The child simulators (`Model.structure.sub_simulators`). -/
def subs : Simulator St Rng → List (String × Simulator St Rng)
  | .mk _ s => s

/-- Field accessor, as in the source. -/
def t_next (s : Simulator St Rng) : Time := s.core.t_next

/-- Field accessor, as in the source. -/
def t_next_self (s : Simulator St Rng) : Time := s.core.t_next_self

/-- Field accessor, as in the source. -/
def t_last (s : Simulator St Rng) : Time := s.core.t_last

/-- Field accessor, as in the source. -/
def full_name (s : Simulator St Rng) : String := s.core.full_name

/-- `Model::has_submodels`: the sub-simulator map is non-empty. -/
def has_submodels (s : Simulator St Rng) : Bool := !s.subs.isEmpty

/-- Replace only the behaviour record of the node itself (used to state
that an execution path never consults the behaviour). -/
def setDyn (d : Dynamic St Rng) : Simulator St Rng → Simulator St Rng
  | .mk c subs => .mk { c with dyn := d } subs

end Simulator

/-! ## Sorted association lists (model of `BTreeMap<String, _>`) -/

/-- `BTreeMap::get`. -/
def alGet? {α : Type} : List (String × α) → String → Option α
  | [], _ => none
  | (k, v) :: rest, key => if k == key then some v else alGet? rest key

/-- The key list, in iteration (sorted) order (`BTreeMap::keys`). -/
def alKeys {α : Type} (l : List (String × α)) : List String := l.map Prod.fst

/-- `entry(key).or_default().push(msg)` on a `BTreeMap<String, Bag>`:
sorted insertion keyed by `compare` on strings. -/
def alPushMsg : List (String × Bag) → String → Msg → List (String × Bag)
  | [], key, msg => [(key, [msg])]
  | (k, b) :: rest, key, msg =>
    match compare key k with
    | .lt => (key, [msg]) :: (k, b) :: rest
    | .eq => (k, b ++ [msg]) :: rest
    | .gt => (k, b) :: alPushMsg rest key msg

/-- In-place update of the value at a key (Rust `get_mut` mutation);
keys and order are unchanged, a missing key is a no-op. -/
def alUpdate {α : Type} : List (String × α) → String → α → List (String × α)
  | [], _, _ => []
  | (k, v) :: rest, key, v' =>
    if k == key then (k, v') :: rest else (k, v) :: alUpdate rest key v'

/-! ## The coupled-model router (src/simulator.rs, get_submodels_x_bags) -/

/-- Inner loop of the EIC pass: one coupling edge against every message of
the parent's `x_bag`, in message order. -/
def routeEicMsgs (e : ExternalInputCoupling) : Bag → List (String × Bag) → List (String × Bag)
  | [], acc => acc
  | msg :: rest, acc =>
      routeEicMsgs e rest
        (if e.source_port == msg.port then
          alPushMsg acc e.destination_model ⟨e.destination_model_port, msg.value⟩
        else acc)

/-- Outer loop of the EIC pass: every external-input coupling in
declaration order. -/
def routeEics : List ExternalInputCoupling → Bag → List (String × Bag) → List (String × Bag)
  | [], _, acc => acc
  | e :: rest, x_bag, acc => routeEics rest x_bag (routeEicMsgs e x_bag acc)

/-- Innermost loop of the IC pass: one internal coupling against the
messages of one matching mail item. -/
def routeIcMsgs (ic : InternalCoupling) : Bag → List (String × Bag) → List (String × Bag)
  | [], acc => acc
  | msg :: rest, acc =>
      routeIcMsgs ic rest
        (if msg.port == ic.source_model_port then
          alPushMsg acc ic.destination_model ⟨ic.destination_model_port, msg.value⟩
        else acc)

/-- Middle loop of the IC pass: one internal coupling against every mail
item, matching on the source child's name. -/
def routeIcMail (ic : InternalCoupling) : Mail → List (String × Bag) → List (String × Bag)
  | [], acc => acc
  | item :: rest, acc =>
      routeIcMail ic rest
        (if ic.source_model == item.model_name then routeIcMsgs ic item.y_bag acc else acc)

/-- Outer loop of the IC pass: every internal coupling in declaration
order. -/
def routeIcs : List InternalCoupling → Mail → List (String × Bag) → List (String × Bag)
  | [], _, acc => acc
  | ic :: rest, mail, acc => routeIcs rest mail (routeIcMail ic mail acc)

/-- `Simulator::get_submodels_x_bags`: project the parent's input bag and
the collected mail onto per-child inbound bags — first the EIC pass over
`x_bag`, then the IC pass over `mail`, accumulating into a
`BTreeMap<String, Bag>`. -/
def get_submodels_x_bags (eics : List ExternalInputCoupling)
    (ics : List InternalCoupling) (x_bag : Bag) (mail : Mail) : List (String × Bag) :=
  routeIcs ics mail (routeEics eics x_bag [])

/-! ## EOC projection (src/model.rs, Model::get_y_bag_from_mail) -/

/-- Innermost loop: one external-output coupling against the messages of a
matching mail item. -/
def yBagMsgs (eoc : ExternalOutputCoupling) : Bag → Bag → Bag
  | [], acc => acc
  | msg :: rest, acc =>
      yBagMsgs eoc rest
        (if eoc.source_model_port == msg.port then
          acc ++ [⟨eoc.destination_port, msg.value⟩] else acc)

/-- Middle loop: one external-output coupling against every mail item. -/
def yBagMail (eoc : ExternalOutputCoupling) : Mail → Bag → Bag
  | [], acc => acc
  | item :: rest, acc =>
      yBagMail eoc rest
        (if item.model_name == eoc.source_model then yBagMsgs eoc item.y_bag acc else acc)

/-- `Model::get_y_bag_from_mail`: EOC projection of the collected mail
into the parent's up-going bag. -/
def get_y_bag_from_mail (eocs : List ExternalOutputCoupling) (mail : Mail) : Bag :=
  match eocs with
  | [] => []
  | _ :: _ => yBagFromMailLoop eocs mail
where
  /-- outer loop over the external-output couplings. -/
  yBagFromMailLoop : List ExternalOutputCoupling → Mail → Bag
    | [], _ => []
    | eoc :: rest, mail => yBagMail eoc mail [] ++ yBagFromMailLoop rest mail

/-! ## collect_outputs (src/simulator.rs) -/

/-- The child loop of `Simulator::collect_outputs` on a coupled node:
every child whose `t_next` equals `sim_time` is recorded imminent
(`HashSet::insert`), recursively collected, and its output bag appended to
the mail, in map-iteration order.  `recurse` is the recursive call one
tree level down. -/
def collectLoop {St Rng : Type}
    (recurse : Simulator St Rng → Except Time.Err (Bag × Simulator St Rng))
    (sim_time : Time) :
    List (String × Simulator St Rng) → List String → Mail →
    Except Time.Err (List (String × Simulator St Rng) × List String × Mail)
  | [], imm, mail => .ok ([], imm, mail)
  | (name, sub) :: rest, imm, mail =>
    if Time.beq sub.t_next sim_time then
      match recurse sub with
      | .error e => .error e
      | .ok (y, sub') =>
        match collectLoop recurse sim_time rest
          (if name ∈ imm then imm else imm ++ [name]) (mail ++ [⟨name, y⟩]) with
        | .error e => .error e
        | .ok (rest', immOut, mailOut) => .ok ((name, sub') :: rest', immOut, mailOut)
    else
      match collectLoop recurse sim_time rest imm mail with
      | .error e => .error e
      | .ok (rest', immOut, mailOut) => .ok ((name, sub) :: rest', immOut, mailOut)

/-- `Simulator::collect_outputs`: at `sim_time == t_next_self` return the
behaviour's output bag; otherwise, at `sim_time == t_next`, collect the
imminent children into `imminent`/`mail` and project the mail through the
EOC edges; otherwise panic with a synchronization error. -/
def collect_outputs {St Rng : Type} :
    Nat → Time → Simulator St Rng → Except Time.Err (Bag × Simulator St Rng)
  | 0, _, _ => .error .fuelOut
  | fuel + 1, sim_time, .mk c subs =>
    if Time.beq sim_time c.t_next_self then
      .ok (c.dyn.output c.st sim_time, .mk c subs)
    else if Time.beq sim_time c.t_next then
      match collectLoop (collect_outputs fuel sim_time) sim_time subs c.imminent c.mail with
      | .error e => .error e
      | .ok (subs', imm', mail') =>
        .ok (get_y_bag_from_mail c.external_output_couplings mail',
          .mk { c with imminent := imm', mail := mail' } subs')
    else .error (.badSyncCollect c.full_name)

/-! ## process_y_messages (src/simulator.rs) -/

/-- `Simulator::process_y_messages`: advance `t_last`, fire the
behaviour's `external_mail_transition` on the collected mail, recompute
`t_next_self` from `time_advance`, and lower `t_next` to it. -/
def process_y_messages {St Rng : Type} (sim_time : Time) :
    Simulator St Rng → Rng → Except Time.Err (Simulator St Rng × Rng)
  | .mk c subs, rng =>
    match Time.sub sim_time c.t_last with
    | .error e => .error e
    | .ok elapsed =>
      let tr := c.dyn.external_mail_transition c.st sim_time elapsed c.mail rng
      let ta := c.dyn.time_advance tr.1 tr.2
      match Time.add sim_time ta.1 with
      | .error e => .error e
      | .ok tns =>
        let c2 := { c with st := tr.1, t_last := sim_time, t_next_self := tns,
                           t_next := Time.minOrd tns c.t_next }
        .ok (.mk c2 subs, ta.2)

/-! ## process_x_messages (src/simulator.rs) -/

/-- `min` of the children's `t_next`, `Inf` when there are none
(`Simulator::submodels_t_next`). -/
def submodels_t_next {St Rng : Type} (subs : List (String × Simulator St Rng)) : Time :=
  Time.minList (subs.map (fun p => p.2.t_next))

/-- Dispatch one `process_x_messages` call per task `(child, bag)`, in
task order, each child looked up by name (`unwrap` panic when absent) and
updated in place; the shared RNG is threaded through in call order. -/
def runOnChildren {St Rng : Type}
    (recurse : Bag → Simulator St Rng → Rng → Except Time.Err (Simulator St Rng × Rng)) :
    List (String × Bag) → List (String × Simulator St Rng) → Rng →
    Except Time.Err (List (String × Simulator St Rng) × Rng)
  | [], subs, rng => .ok (subs, rng)
  | (name, bag) :: tasks, subs, rng =>
    match alGet? subs name with
    | none => .error (.missingChild name)
    | some child =>
      match recurse bag child rng with
      | .error e => .error e
      | .ok (child', rng') => runOnChildren recurse tasks (alUpdate subs name child') rng'

/-- `Simulator::sent_x_bag_to_submodels`: route `x_bag` and the pending
mail onto per-child bags; every imminent child without a routed bag is
processed with an empty bag first, then every child with a routed bag is
processed with it (map-iteration order).  The caller clears `mail` and
`imminent` afterwards, as the source does inside this function. -/
def sent_x_bag_to_submodels {St Rng : Type}
    (recurse : Bag → Simulator St Rng → Rng → Except Time.Err (Simulator St Rng × Rng))
    (x_bag : Bag) (eics : List ExternalInputCoupling) (ics : List InternalCoupling)
    (imminent : List String) (mail : Mail)
    (subs : List (String × Simulator St Rng)) (rng : Rng) :
    Except Time.Err (List (String × Simulator St Rng) × Rng) :=
  let x_bags_for_submodels := get_submodels_x_bags eics ics x_bag mail
  let has_x_bags := alKeys x_bags_for_submodels
  let immTasks := (imminent.filter (fun n => !has_x_bags.contains n)).map
    (fun n => (n, ([] : Bag)))
  runOnChildren recurse (immTasks ++ x_bags_for_submodels) subs rng

/-- Tail of `process_x_messages`, after the transition has produced the
new behaviour state `st1` and RNG `rng1`: recompute `t_next_self` from
`time_advance`, drive the children through `sent_x_bag_to_submodels` when
there are any (clearing `imminent` and `mail`), and set `t_next`. -/
def processXFinish {St Rng : Type}
    (recurse : Bag → Simulator St Rng → Rng → Except Time.Err (Simulator St Rng × Rng))
    (sim_time : Time) (x_bag : Bag) (c : SimCore St Rng)
    (subs : List (String × Simulator St Rng)) (st1 : St) (rng1 : Rng) :
    Except Time.Err (Simulator St Rng × Rng) :=
  match Time.add sim_time (c.dyn.time_advance st1 rng1).1 with
  | .error e => .error e
  | .ok tns =>
    if subs.isEmpty then
      .ok (.mk { c with st := st1, t_last := sim_time,
                        t_next_self := tns, t_next := tns } subs,
        (c.dyn.time_advance st1 rng1).2)
    else
      match sent_x_bag_to_submodels recurse x_bag
        c.external_input_couplings c.internal_couplings c.imminent c.mail subs
        (c.dyn.time_advance st1 rng1).2 with
      | .error e => .error e
      | .ok (subs', rng') =>
        .ok (.mk { c with st := st1, t_last := sim_time, t_next_self := tns,
                          t_next := Time.minOrd tns (submodels_t_next subs'),
                          imminent := [], mail := [] } subs', rng')

/-- `Simulator::process_x_messages`: check `t_last ≤ sim_time ≤
t_next_self` (panic otherwise), fire the internal / confluent / external
transition selected by `(sim_time == t_next_self, x_bag.is_empty())`,
then finish through `processXFinish`. -/
def process_x_messages {St Rng : Type} :
    Nat → Time → Bag → Simulator St Rng → Rng → Except Time.Err (Simulator St Rng × Rng)
  | 0, _, _, _, _ => .error .fuelOut
  | fuel + 1, sim_time, x_bag, .mk c subs, rng =>
    if Time.ge sim_time c.t_last && Time.le sim_time c.t_next_self then
      match Time.sub sim_time c.t_last with
      | .error e => .error e
      | .ok elapsed =>
        processXFinish (process_x_messages fuel sim_time) sim_time x_bag c subs
          (if Time.beq sim_time c.t_next_self then
            if x_bag.isEmpty then c.dyn.internal_transition c.st sim_time rng
            else c.dyn.confluent_transition c.st sim_time x_bag rng
          else c.dyn.external_transition c.st sim_time elapsed x_bag rng).1
          (if Time.beq sim_time c.t_next_self then
            if x_bag.isEmpty then c.dyn.internal_transition c.st sim_time rng
            else c.dyn.confluent_transition c.st sim_time x_bag rng
          else c.dyn.external_transition c.st sim_time elapsed x_bag rng).2
    else .error (.badSyncProcess c.full_name)

/-! ## Root driver (src/root_simulator.rs) -/

/-- `struct RootSimulator`: the top-level simulator plus the driver's
clock. -/
structure RootSimulator (St Rng : Type) where
  root_model_full_name : String
  simulator : Simulator St Rng
  init_time : Time
  finish_time : Time
  sim_time : Time
  rng : Rng

/-- One driver tick (`RootSimulator::step`): `collect_outputs` (bag
discarded), `process_y_messages`, then `process_x_messages` with an empty
bag, all at the current `sim_time`. -/
def RootSimulator.step {St Rng : Type} (fuel : Nat) (rs : RootSimulator St Rng) :
    Except Time.Err (RootSimulator St Rng) :=
  match collect_outputs fuel rs.sim_time rs.simulator with
  | .error e => .error e
  | .ok (_, s1) =>
    match process_y_messages rs.sim_time s1 rs.rng with
    | .error e => .error e
    | .ok (s2, r2) =>
      match process_x_messages fuel rs.sim_time [] s2 r2 with
      | .error e => .error e
      | .ok (s3, r3) => .ok { rs with simulator := s3, rng := r3 }

/-- `RootSimulator::run`: loop `step` and advance `sim_time` to the root's
`t_next` while `sim_time < finish_time`; on exit call `finish(sim_time)`
(behaviour `finish` calls have no kernel-visible effect, so the returned
`Time` records the instant `finish` was called with). -/
def RootSimulator.run {St Rng : Type} :
    Nat → RootSimulator St Rng → Except Time.Err (RootSimulator St Rng × Time)
  | 0, _ => .error .fuelOut
  | fuel + 1, rs =>
    if Time.lt rs.sim_time rs.finish_time then
      match rs.step (fuel + 1) with
      | .error e => .error e
      | .ok rs' => RootSimulator.run fuel { rs' with sim_time := rs'.simulator.t_next }
    else .ok (rs, rs.sim_time)

/-! ## init_static (src/simulator.rs) -/

/-- The child loop of `init_static`: each child is initialised under the
full name `parent/child`. -/
def initStaticSubs {St Rng : Type}
    (recurse : String → Simulator St Rng → Except Time.Err (Simulator St Rng))
    (parent : String) :
    List (String × Simulator St Rng) →
    Except Time.Err (List (String × Simulator St Rng))
  | [] => .ok []
  | (name, sub) :: rest =>
    match recurse (parent ++ "/" ++ name) sub with
    | .error e => .error e
    | .ok sub' =>
      match initStaticSubs recurse parent rest with
      | .error e => .error e
      | .ok rest' => .ok ((name, sub') :: rest')

/-- `Simulator::init_static`: look the node's full name up in the chosen
init-variant map — `unwrap` panic when absent, with no fallback to any
default — store the value as `init_value`, and recurse into the children
with slash-extended names.  (`sim_dir`, the RNG handle and observer
configuration are omitted: no claim reads them.) -/
def init_static {St Rng : Type} :
    Nat → String → List (String × Value) → Simulator St Rng →
    Except Time.Err (Simulator St Rng)
  | 0, _, _, _ => .error .fuelOut
  | fuel + 1, model_full_name, init_variant, .mk c subs =>
    match alGet? init_variant model_full_name with
    | none => .error (.unwrapNone "init_variant.get(model_full_name)")
    | some v =>
      match initStaticSubs (fun n s => init_static fuel n init_variant s)
          model_full_name subs with
      | .error e => .error e
      | .ok subs' => .ok (.mk { c with init_value := v } subs')

end Exdsdevs

namespace Exdsdevs

/-! ## Initial-variant enumerator (src/experiment.rs) -/

/-- One odometer digit (`struct VarDigit`): the model path, the number of
its named variants, and the current position. -/
structure VarDigit where
  model_path : String
  len : Nat
  idx : Nat
  deriving DecidableEq, Repr

/-- `struct InitVariantsFactory`: the per-model variant-value maps, the
derived per-model variant-name lists, the odometer, the carry flag and the
running variant index.  (The `default_init_values` map built by
`InitVariantsFactory::new` is a local variable that is dropped without
being stored, so it has no counterpart here.) -/
structure InitVariantsFactory where
  init_variants_values : List (String × List (String × Value))
  init_variants_names : List (String × List String)
  init_vec : List VarDigit
  carry : Nat
  var_number : Nat

/-- `InitVariantsFactory::get_init_vec`: one digit per model, initial
position `0`, length = number of variant names. -/
def get_init_vec (names : List (String × List String)) : List VarDigit :=
  names.map (fun p => ⟨p.1, p.2.length, 0⟩)

/-- The tail of `InitVariantsFactory::new`, starting from the
`init_variants_values` map produced by the breadth-first tree walk (one
entry per model full path, sorted by path): derive the name lists as the
key sets of the value maps, build the odometer, zero the carry and the
variant index. -/
def mkInitVariantsFactory
    (init_variants_values : List (String × List (String × Value))) :
    InitVariantsFactory :=
  let names := init_variants_values.map (fun p => (p.1, alKeys p.2))
  { init_variants_values := init_variants_values
    init_variants_names := names
    init_vec := get_init_vec names
    carry := 0
    var_number := 0 }

/-- The odometer increment of `next_variant`: starting with carry `1`,
walk the digits from the least significant (rightmost) end; a digit whose
incremented position reaches its length wraps to `0` and carries on. -/
def incVec : List VarDigit → List VarDigit × Nat
  | [] => ([], 1)
  | d :: rest =>
    let r := incVec rest
    let idx1 := d.idx + r.2
    if idx1 == d.len then ({ d with idx := 0 } :: r.1, 1)
    else ({ d with idx := idx1 } :: r.1, 0)

/-- The emission phase of `next_variant`: for every digit, look its model
up in the name table and take the name at the digit's position — both
lookups are `unwrap`ped in the source, so a missing model or an
out-of-range position (in particular a zero-variant model, whose name
list is empty) is a panic. -/
def buildNextInit (names : List (String × List String)) :
    List VarDigit → Except Time.Err (List (String × String))
  | [] => .ok []
  | d :: rest =>
    match alGet? names d.model_path with
    | none => .error (.unwrapNone "init_variants_names.get(model_path)")
    | some ns =>
      match ns.get? d.idx with
      | none => .error (.unwrapNone "init_variants_names.get(idx)")
      | some nm =>
        match buildNextInit names rest with
        | .error e => .error e
        | .ok rest' => .ok ((d.model_path, nm) :: rest')

/-- `InitVariantsFactory::next_variant`: when the carry is clear, emit the
current digit assignment together with the running index, then increment
the odometer; once the carry is set, every further call yields `none`. -/
def next_variant (f : InitVariantsFactory) :
    Except Time.Err (Option (Nat × List (String × String)) × InitVariantsFactory) :=
  if f.carry == 0 then
    match buildNextInit f.init_variants_names f.init_vec with
    | .error e => .error e
    | .ok next_init =>
      let inc := incVec f.init_vec
      .ok (some (f.var_number, next_init),
        { f with init_vec := inc.1, carry := inc.2, var_number := f.var_number + 1 })
  else .ok (none, f)

/-- The value-resolution loop of `next_enumerated_variant`: each emitted
`(model, variant-name)` pair is resolved against the variant-value table;
a pair whose model or name fails to resolve is silently skipped (the
source's nested `if let` without an `else`). -/
def enumValues (values : List (String × List (String × Value))) :
    List (String × String) → List (String × Value)
  | [] => []
  | (model, name) :: rest =>
    match alGet? values model with
    | none => enumValues values rest
    | some variants =>
      match alGet? variants name with
      | none => enumValues values rest
      | some v => (model, v) :: enumValues values rest

/-- `InitVariantsFactory::next_enumerated_variant`: map `next_variant`'s
emission through the value table. -/
def next_enumerated_variant (f : InitVariantsFactory) :
    Except Time.Err (Option (Nat × List (String × Value)) × InitVariantsFactory) :=
  match next_variant f with
  | .error e => .error e
  | .ok (none, f1) => .ok (none, f1)
  | .ok (some (n, nv), f1) => .ok (some (n, enumValues f1.init_variants_values nv), f1)

/-- Repeatedly call `next_variant`, collecting the emissions until it
yields `none`; the fuel only bounds the number of calls. -/
def enumerate : Nat → InitVariantsFactory →
    Except Time.Err (List (Nat × List (String × String)))
  | 0, _ => .error .fuelOut
  | fuel + 1, f =>
    match next_variant f with
    | .error e => .error e
    | .ok (none, _) => .ok []
    | .ok (some em, f1) =>
      match enumerate fuel f1 with
      | .error e => .error e
      | .ok l => .ok (em :: l)

end Exdsdevs

namespace Exdsdevs

/-! ## Auxiliary definitions used by the statements -/

/-- Bag stored at a key of a routed-bag map, empty when absent. -/
def alGetBag (l : List (String × Bag)) (k : String) : Bag := (alGet? l k).getD []

/-- The key list is strictly sorted under `compare` — the `BTreeMap`
representation invariant. -/
def alSorted {α : Type} (l : List (String × α)) : Prop :=
  (l.map Prod.fst).Pairwise (fun a b => compare a b = Ordering.lt)

/-- Replace only the confluent transition of the node's own behaviour. -/
def Simulator.setConfluent {St Rng : Type} (f : St → Time → Bag → Rng → St × Rng) :
    Simulator St Rng → Simulator St Rng
  | .mk c subs => .mk { c with dyn := { c.dyn with confluent_transition := f } } subs

mutual

/-- Height of a simulator tree: 1 for the node plus the children's
maximum. -/
def heightS {St Rng : Type} : Simulator St Rng → Nat
  | .mk _ subs => heightL subs + 1

/-- Maximum height over a child list. -/
def heightL {St Rng : Type} : List (String × Simulator St Rng) → Nat
  | [] => 0
  | (_, s) :: rest => max (heightS s) (heightL rest)

end

mutual

/-- Full names of all strict descendants of a node. -/
def namesBelow {St Rng : Type} : Simulator St Rng → List String
  | .mk _ subs => namesBelowL subs

/-- Full names of the listed children and of all their descendants. -/
def namesBelowL {St Rng : Type} : List (String × Simulator St Rng) → List String
  | [] => []
  | (_, s) :: rest => s.core.full_name :: (namesBelow s ++ namesBelowL rest)

end

/-! ## Specification-side router (the claim's reading of §4.2)

These definitions restate the router law in direct form — per child, the
EIC-matched messages edge by edge, then the IC-matched messages edge by
edge — to be compared with `get_submodels_x_bags` above, which is
translated from the source loops. -/

/-- Messages one EIC edge contributes to the bag of child `name`. -/
def eicMatches (e : ExternalInputCoupling) (x_bag : Bag) (name : String) : Bag :=
  if e.destination_model == name then
    (x_bag.filter (fun m => e.source_port == m.port)).map
      (fun m => ⟨e.destination_model_port, m.value⟩)
  else []

/-- All EIC-routed messages for child `name`, in edge-major order. -/
def eicRouted (eics : List ExternalInputCoupling) (x_bag : Bag) (name : String) : Bag :=
  (eics.map (fun e => eicMatches e x_bag name)).flatten

/-- Messages one IC edge contributes to the bag of child `name`, walking
the mail in order. -/
def icMatches (ic : InternalCoupling) (mail : Mail) (name : String) : Bag :=
  if ic.destination_model == name then
    (mail.map (fun item =>
      if ic.source_model == item.model_name then
        (item.y_bag.filter (fun m => m.port == ic.source_model_port)).map
          (fun m => ⟨ic.destination_model_port, m.value⟩)
      else [])).flatten
  else []

/-- All IC-routed messages for child `name`, in edge-major order. -/
def icRouted (ics : List InternalCoupling) (mail : Mail) (name : String) : Bag :=
  (ics.map (fun ic => icMatches ic mail name)).flatten

/-! ## Concrete behaviours and simulators used in counterexamples and
witnesses -/

/-- A behaviour whose transitions leave the state unchanged and that is
permanently passive (`ta = Inf`). -/
def trivDyn : Dynamic Nat Unit :=
  { internal_transition := fun s _ r => (s, r)
    external_transition := fun s _ _ _ r => (s, r)
    confluent_transition := fun s _ _ r => (s, r)
    external_mail_transition := fun s _ _ _ r => (s, r)
    time_advance := fun _ r => (Time.Inf, r)
    output := fun _ _ => [] }

/-- A behaviour that records which transition fired: the internal
transition maps `s` to `10 s + 1`, the external one to `10 s + 2`, the
confluent one to `10 s + 3`; `ta = Inf`, and the output emits one
message. -/
def markDyn : Dynamic Nat Unit :=
  { internal_transition := fun s _ r => (10 * s + 1, r)
    external_transition := fun s _ _ _ r => (10 * s + 2, r)
    confluent_transition := fun s _ _ r => (10 * s + 3, r)
    external_mail_transition := fun s _ _ _ r => (s, r)
    time_advance := fun _ r => (Time.Inf, r)
    output := fun _ _ => [⟨"o", Value.num 7⟩] }

/-- A simulator core with no couplings, empty `imminent`/`mail`, state `0`
and the given times. -/
def baseCore (name : String) (d : Dynamic Nat Unit) (tl tns tn : Time) : SimCore Nat Unit :=
  { full_name := name
    dyn := d
    st := 0
    init_value := .null
    external_input_couplings := []
    internal_couplings := []
    external_output_couplings := []
    imminent := []
    mail := []
    t_last := tl
    t_next_self := tns
    t_next := tn }

/-- Root node whose `t_next` has become `StopSim` (as propagated from a
descendant through `collect_outputs`/`process_x_messages`). -/
def c1Sim : Simulator Nat Unit :=
  .mk (baseCore "root" trivDyn (.Value 3) .Inf .StopSim) []

/-- The driver state right after `sim_time = self.simulator.t_next()` set
`sim_time` to `StopSim`, with `finish_time = Value 100`. -/
def c1Root : RootSimulator Nat Unit :=
  { root_model_full_name := "root"
    simulator := c1Sim
    init_time := .Value 0
    finish_time := .Value 100
    sim_time := .StopSim
    rng := () }

/-- An atomic node between events: `t_last = 0`, `t_next_self = 5`. -/
def c3Sim : Simulator Nat Unit :=
  .mk (baseCore "a" markDyn (.Value 0) (.Value 5) (.Value 5)) []

/-- Atomic child of the C5 witness, next event at `9`. -/
def c5Child : Simulator Nat Unit :=
  .mk (baseCore "p/k" trivDyn (.Value 0) (.Value 9) (.Value 9)) []

/-- Coupled parent of the C5 witness. -/
def c5Sim : Simulator Nat Unit :=
  .mk (baseCore "p" trivDyn (.Value 0) .Inf (.Value 9)) [("k", c5Child)]

/-- Atomic grandchild, imminent at `5`. -/
def c9G : Simulator Nat Unit :=
  .mk (baseCore "root/p/c/g" markDyn (.Value 0) (.Value 5) (.Value 5)) []

/-- Coupled middle node: passive itself (`t_next_self = Inf`) but imminent
through its child `g`. -/
def c9C : Simulator Nat Unit :=
  .mk (baseCore "root/p/c" markDyn (.Value 0) .Inf (.Value 5)) [("g", c9G)]

/-- Coupled top node owning `c`. -/
def c9P : Simulator Nat Unit :=
  .mk (baseCore "root/p" trivDyn (.Value 0) .Inf (.Value 5)) [("c", c9C)]

/-- Parent for the C9 witness: the atomic child `k` was recorded imminent
and receives no routed bag. -/
def c9wChild : Simulator Nat Unit :=
  .mk (baseCore "q/k" markDyn (.Value 0) (.Value 5) (.Value 5)) []

/-- Coupled parent of the C9 witness with `imminent = [k]` pending. -/
def c9wP : Simulator Nat Unit :=
  .mk { baseCore "q" trivDyn (.Value 0) .Inf (.Value 5) with imminent := ["k"] }
    [("k", c9wChild)]

/-- Atomic node used by the C4 witness: window `[Value 4, Value 7]`. -/
def c4Sim : Simulator Nat Unit :=
  .mk (baseCore "w4" trivDyn (.Value 4) (.Value 7) (.Value 7)) []

end Exdsdevs
namespace Exdsdevs

/-! ## Odometer abstractions (towards C8) -/

/-- Product of the digit lengths. -/
def prodLens : List VarDigit → Nat
  | [] => 1
  | d :: rest => d.len * prodLens rest

/-- Mixed-radix value of the digit positions (the last digit is least
significant, as the increment walks the vector from the right). -/
def vecVal : List VarDigit → Nat
  | [] => 0
  | d :: rest => d.idx * prodLens rest + vecVal rest

/-- The shape of an odometer: model paths paired with digit lengths. -/
def shapeOf (v : List VarDigit) : List (String × Nat) :=
  v.map (fun d => (d.model_path, d.len))

/-- The name table serves a shape: each path resolves to a duplicate-free
name list of exactly the digit's length. -/
def namesOk (names : List (String × List String)) (shape : List (String × Nat)) : Prop :=
  ∀ p ∈ shape, ∃ ns, alGet? names p.1 = some ns ∧ ns.length = p.2 ∧ ns.Nodup

/-- The emission determined by a digit state. -/
def emit (names : List (String × List String)) (v : List VarDigit) :
    List (String × String) :=
  v.map (fun d => (d.model_path, ((alGet? names d.model_path).getD []).getD d.idx ""))

/-! ## Factory well-formedness (towards C10) -/

/-- The invariant `InitVariantsFactory::new` establishes and the stepping
functions preserve: the name table is exactly the key sets of the value
table, and the odometer carries one digit per model of the value table,
in table order. -/
def factoryWF (f : InitVariantsFactory) : Prop :=
  f.init_variants_names = f.init_variants_values.map (fun p => (p.1, alKeys p.2)) ∧
  f.init_vec.map VarDigit.model_path = f.init_variants_values.map Prod.fst

/-- A concrete two-model variant-value table (`root` and its submodel
`root/m`, one named variant each). -/
def c10Vals : List (String × List (String × Value)) :=
  [("root", [("a", Value.num 1)]), ("root/m", [("b", Value.num 2)])]

/-- The variant map the factory over `c10Vals` emits first: it resolves a
value for *every* model path. -/
def c10Map : List (String × Value) :=
  [("root", Value.num 1), ("root/m", Value.num 2)]

/-- The factory state after the first `next_enumerated_variant` call on
`mkInitVariantsFactory c10Vals`: the odometer has wrapped and the carry
is set. -/
def c10F1 : InitVariantsFactory :=
  { init_variants_values := c10Vals
    init_variants_names := [("root", ["a"]), ("root/m", ["b"])]
    init_vec := [⟨"root", 1, 0⟩, ⟨"root/m", 1, 0⟩]
    carry := 1
    var_number := 1 }

/-- An atomic simulator node used to exercise `init_static`. -/
def c10Sim : Simulator Nat Unit :=
  .mk (baseCore "c10root" trivDyn (.Value 0) .Inf .Inf) []

end Exdsdevs

namespace Exdsdevs

/-! ## Constructor/projection reduction for the nested simulator type -/

@[simp] theorem Simulator.core_mk {St Rng : Type} (c : SimCore St Rng)
    (l : List (String × Simulator St Rng)) : (Simulator.mk c l).core = c := rfl

@[simp] theorem Simulator.subs_mk {St Rng : Type} (c : SimCore St Rng)
    (l : List (String × Simulator St Rng)) : (Simulator.mk c l).subs = l := rfl

end Exdsdevs

namespace Exdsdevs

/-! ## Claim C2: the order on `Time` -/

/-- **C2.** The spec claims `Time` is totally ordered with equality by tag
and payload, and in particular `x.cmp(x) == Equal` — hence `x == x` — for
every `x` including `x = StopSim`.  The code violates this: the match arm
`(StopSim, _) => Less` of `Ord::cmp` captures `(StopSim, StopSim)`, so
`StopSim.cmp(StopSim)` is `Less` and `StopSim == StopSim` is `false`,
contradicting the documented total order (and Rust's `Eq`/`Ord`
contracts). -/
theorem c2_stopsim_cmp_not_reflexive :
    Time.cmp Time.StopSim Time.StopSim = Ordering.lt ∧
    Time.beq Time.StopSim Time.StopSim = false ∧
    Time.ge Time.StopSim Time.StopSim = false := by
  decide

/-! ## Claim C6: time arithmetic -/

/-- **C6.** Addition and subtraction on `Time` satisfy the identities of
the spec: `Inf ± x = Inf`, `Value(a) ± Value(b) = Value(a ± b)` when the
`i64` result is representable, `StopSim ± StopSim = StopSim`,
`Value(v) ± StopSim = Value(v)`, and an `i64` overflow on `Value + Value`
is a fatal error rather than a silent wrap. -/
theorem c6_time_arithmetic (x : Time) (a b v : Int)
    (hab : Time.fitsI64 (a + b) = true) (hab' : Time.fitsI64 (a - b) = true)
    (hoveradd : Time.fitsI64 (a + v) = false) :
    Time.add .Inf x = .ok .Inf ∧
    Time.sub .Inf x = .ok .Inf ∧
    Time.add (.Value a) (.Value b) = .ok (.Value (a + b)) ∧
    Time.sub (.Value a) (.Value b) = .ok (.Value (a - b)) ∧
    Time.add .StopSim .StopSim = .ok .StopSim ∧
    Time.sub .StopSim .StopSim = .ok .StopSim ∧
    Time.add (.Value v) .StopSim = .ok (.Value v) ∧
    Time.sub (.Value v) .StopSim = .ok (.Value v) ∧
    Time.add (.Value a) (.Value v) = .error .overflow := by
  refine ⟨?_, ?_, ?_, ?_, rfl, rfl, rfl, rfl, ?_⟩
  · cases x <;> rfl
  · cases x <;> rfl
  · simp [Time.add, hab]
  · simp [Time.sub, hab']
  · simp [Time.add, hoveradd]

/-- Witness for C6 at concrete inputs: `2 + 3` fits in `i64`, while
`2^62 + 2^62` overflows. -/
theorem c6_time_arithmetic_witness :
    Time.add (.Value 2) (.Value 3) = .ok (.Value 5) ∧
    Time.add (.Value (2 ^ 62)) (.Value (2 ^ 62)) = .error .overflow := by
  have h := c6_time_arithmetic Time.Inf 2 3 (2 ^ 63) (by decide) (by decide) (by decide)
  have h2 := c6_time_arithmetic Time.Inf (2 ^ 62) 0 (2 ^ 62) (by decide) (by decide) (by decide)
  exact ⟨h.2.2.1, h2.2.2.2.2.2.2.2.2⟩

end Exdsdevs


namespace Exdsdevs

/-! ## Claim C1: the root driver and `t_next == StopSim` -/

/-- **C1.** The spec requires that when the root's `t_next` becomes
`StopSim` the driver must call `finish(sim_time)` and exit.  The code does
not implement this: since `StopSim` compares less than `finish_time`, the
loop guard `sim_time < finish_time` still *holds*, the loop re-enters
`step`, and `collect_outputs` panics — `sim_time == t_next_self` fails
(`StopSim` vs `Inf`) and even `sim_time == t_next` fails because
`StopSim == StopSim` evaluates to `false` under the source's `cmp`.  At
the concrete failing state the run aborts with the synchronization panic
instead of finishing. -/
theorem c1_stopsim_run_panics :
    Time.lt .StopSim (.Value 100) = true ∧
    RootSimulator.run 3 c1Root = .error (.badSyncCollect "root") :=
  ⟨rfl, rfl⟩

/-! ## Claim C3: the `(false, true)` case of `process_x_messages` -/

/-- **C3, counterexample.**  The spec claims that a call with
`t < t_next_self` and an empty bag is a no-op transition that fires no
behaviour function.  On the concrete atomic node `c3Sim`
(`t_last = 0`, `t_next_self = 5`, behaviour `markDyn`), the call at
`t = 3` with the empty bag yields state `2 = 10·0 + 2` — the external
transition fired on the empty bag — and `t_next_self` was recomputed to
`Inf` from a fresh `time_advance`. -/
theorem c3_counterexample :
    (process_x_messages 1 (.Value 3) [] c3Sim ()).map
      (fun p => (p.1.core.st, p.1.core.t_next_self)) = .ok (2, Time.Inf) :=
  rfl

end Exdsdevs

namespace Exdsdevs

/-- **C3, amended.**  When `process_x_messages` is entered with
`t_last ≤ t`, `t ≠ t_next_self` (hence `t < t_next_self`) and an *empty*
bag, there is no no-op branch: the behaviour's `external_transition` is
fired with the empty bag and elapsed time `t − t_last`, and `t_next_self`
is recomputed from a fresh `time_advance` (shown here on an atomic node,
where the resulting state is fully explicit). -/
theorem c3_amended_external_fires_on_empty_bag {St Rng : Type} (fuel : Nat)
    (t e a tns : Time) (c : SimCore St Rng) (rng r1 r2 : Rng) (st1 : St)
    (hge : Time.ge t c.t_last = true) (hne : Time.beq t c.t_next_self = false)
    (hle : Time.le t c.t_next_self = true)
    (hsub : Time.sub t c.t_last = .ok e)
    (htr : c.dyn.external_transition c.st t e [] rng = (st1, r1))
    (hta : c.dyn.time_advance st1 r1 = (a, r2))
    (hadd : Time.add t a = .ok tns) :
    process_x_messages (fuel + 1) t [] (.mk c []) rng =
      .ok (.mk { c with st := st1, t_last := t, t_next_self := tns, t_next := tns } [], r2) := by
  simp [process_x_messages, processXFinish, hge, hne, hle, hsub, htr, hta, hadd]

/-- Witness for the amended C3 at a concrete node: entering with `t = 3`,
window `[0, 5]` and the empty bag fires `markDyn`'s external transition
(state `0 ↦ 2`) and recomputes `t_next_self` to `Inf`. -/
theorem c3_amended_witness :
    process_x_messages 1 (.Value 3) [] (.mk (baseCore "a" markDyn (.Value 0)
      (.Value 5) (.Value 5)) []) () =
      .ok (.mk { baseCore "a" markDyn (.Value 0) (.Value 5) (.Value 5) with
        st := 2, t_last := .Value 3, t_next_self := .Inf, t_next := .Inf } [], ()) :=
  c3_amended_external_fires_on_empty_bag 0 (.Value 3) (.Value 3) .Inf .Inf
    (baseCore "a" markDyn (.Value 0) (.Value 5) (.Value 5)) () () () 2
    rfl rfl rfl rfl rfl rfl rfl

end Exdsdevs

namespace Exdsdevs

/-- `min(x, Inf) = x` for the source's `Ord::min`. -/
theorem minOrd_inf_right (x : Time) : Time.minOrd x .Inf = x := by
  cases x <;> rfl

/-- `submodels_t_next` of an empty child list is `Inf`. -/
theorem submodels_t_next_nil {St Rng : Type} :
    submodels_t_next ([] : List (String × Simulator St Rng)) = Time.Inf := rfl

/-- After a successful `processXFinish`, `t_next` is the minimum of the
new `t_next_self` and the children's `t_next`. -/
theorem processXFinish_t_next {St Rng : Type}
    (recurse : Bag → Simulator St Rng → Rng → Except Time.Err (Simulator St Rng × Rng))
    (t : Time) (x_bag : Bag) (c : SimCore St Rng)
    (subs : List (String × Simulator St Rng)) (st1 : St) (rng1 : Rng)
    (sim' : Simulator St Rng) (rng' : Rng)
    (h : processXFinish recurse t x_bag c subs st1 rng1 = .ok (sim', rng')) :
    sim'.core.t_next = Time.minOrd sim'.core.t_next_self (submodels_t_next sim'.subs) := by
  unfold processXFinish at h
  split at h
  · exact absurd h (by simp)
  · split at h
    · rename_i hempty
      injection h with h1
      injection h1 with hsim hrng
      subst hsim
      simp [Simulator.core, Simulator.subs, List.isEmpty_iff.mp hempty,
        submodels_t_next_nil, minOrd_inf_right]
    · split at h
      · exact absurd h (by simp)
      · injection h with h1
        injection h1 with hsim hrng
        subst hsim
        rfl

/-- **C5.**  Immediately after any successful `process_x_messages` on any
node, `t_next` equals `min(t_next_self, min over children of t_next)`
(the child minimum being `Inf` when there are none); in particular an
atomic node ends with `t_next = t_next_self`. -/
theorem c5_t_next_invariant {St Rng : Type} (fuel : Nat) (t : Time) (x_bag : Bag)
    (sim sim' : Simulator St Rng) (rng rng' : Rng)
    (h : process_x_messages fuel t x_bag sim rng = .ok (sim', rng')) :
    sim'.core.t_next = Time.minOrd sim'.core.t_next_self (submodels_t_next sim'.subs) ∧
    (sim'.subs = [] → sim'.core.t_next = sim'.core.t_next_self) := by
  match fuel, sim with
  | 0, _ => simp [process_x_messages] at h
  | fuel + 1, .mk c subs =>
    rw [process_x_messages] at h
    split at h
    · split at h
      · exact absurd h (by simp)
      · have h1 := processXFinish_t_next _ _ _ _ _ _ _ _ _ h
        exact ⟨h1, fun hnil => by rw [h1, hnil, submodels_t_next_nil, minOrd_inf_right]⟩
    · exact absurd h (by simp)

/-- Witness for C5: the coupled node `c5Sim` processed at `t = 5` ends
with `t_next = min(Inf, 9) = 9`. -/
theorem c5_witness :
    process_x_messages 2 (.Value 5) [] c5Sim () =
      .ok (.mk (baseCore "p" trivDyn (.Value 5) .Inf (.Value 9)) [("k", c5Child)], ()) ∧
    (Simulator.mk (baseCore "p" trivDyn (.Value 5) .Inf (.Value 9))
        [("k", c5Child)]).core.t_next =
      Time.minOrd
        (Simulator.mk (baseCore "p" trivDyn (.Value 5) .Inf (.Value 9))
          [("k", c5Child)]).core.t_next_self
        (submodels_t_next (Simulator.mk (baseCore "p" trivDyn (.Value 5) .Inf (.Value 9))
          [("k", c5Child)]).subs) :=
  ⟨rfl, (c5_t_next_invariant 2 (.Value 5) [] c5Sim _ () () rfl).1⟩

end Exdsdevs

namespace Exdsdevs

/-! ### String comparison facts -/

/-- `compare` on strings is `eq` exactly on equal strings. -/
theorem strCmp_eq_iff (a b : String) : compare a b = Ordering.eq ↔ a = b := by
  exact Batteries.BEqCmp.cmp_iff_eq

/-- `compare` on strings is reflexive. -/
theorem strCmp_refl (a : String) : compare a a = Ordering.eq := by
  exact Batteries.OrientedCmp.cmp_refl

/-- `compare` on strings is transitive at `lt`. -/
theorem strCmp_lt_trans (a b c : String) (h1 : compare a b = .lt)
    (h2 : compare b c = .lt) : compare a c = Ordering.lt := by
  exact Batteries.TransCmp.lt_trans h1 h2

/-- `gt` is the mirror of `lt` for string comparison. -/
theorem strCmp_gt_iff (a b : String) : compare a b = Ordering.gt ↔ compare b a = Ordering.lt := by
  exact Batteries.OrientedCmp.cmp_eq_gt

/-- Strictly comparing strings are distinct. -/
theorem strCmp_lt_ne (a b : String) (h : compare a b = Ordering.lt) : a ≠ b := by
  intro he
  subst he
  rw [strCmp_refl] at h
  cases h

/-! ### Sorted association-list lemmas -/

/-- A key strictly below every stored key is absent. -/
theorem alGet?_eq_none {α : Type} (l : List (String × α)) (key : String)
    (h : ∀ x ∈ alKeys l, compare key x = Ordering.lt) : alGet? l key = none := by
  induction l with
  | nil => rfl
  | cons p rest ih =>
    have hp : compare key p.1 = Ordering.lt := h p.1 (by simp [alKeys])
    have hne : p.1 ≠ key := fun he => strCmp_lt_ne key p.1 hp he.symm
    obtain ⟨k0, b0⟩ := p
    rw [alGet?]
    simp only [beq_iff_eq]
    rw [if_neg hne]
    exact ih (fun x hx => h x (by simp [alKeys] at hx ⊢; exact Or.inr hx))

/-- In a sorted list the head key is below every tail key. -/
theorem alSorted_head_lt {α : Type} (k0 : String) (b0 : α)
    (rest : List (String × α)) (hs : alSorted ((k0, b0) :: rest)) :
    ∀ x ∈ alKeys rest, compare k0 x = Ordering.lt := by
  have := (List.pairwise_cons.mp hs).1
  intro x hx
  exact this x (by simpa [alKeys] using hx)

/-- The tail of a sorted list is sorted. -/
theorem alSorted_tail {α : Type} (p : String × α) (rest : List (String × α))
    (hs : alSorted (p :: rest)) : alSorted rest :=
  (List.pairwise_cons.mp hs).2

/-- Keys after a push: the pushed key or an existing one. -/
theorem alKeys_alPushMsg (acc : List (String × Bag)) (key : String) (m : Msg) :
    ∀ x ∈ alKeys (alPushMsg acc key m), x = key ∨ x ∈ alKeys acc := by
  induction acc with
  | nil => intro x hx; simp [alPushMsg, alKeys] at hx; exact Or.inl hx
  | cons p rest ih =>
    obtain ⟨k0, b0⟩ := p
    intro x hx
    rw [alPushMsg] at hx
    rcases hcmp : compare key k0 with hl | he | hg <;> rw [hcmp] at hx <;>
      simp [alKeys] at hx ⊢
    · tauto
    · tauto
    · rcases hx with hx | hx
      · tauto
      · rcases ih x (by simpa [alKeys] using hx) with h | h
        · exact Or.inl h
        · exact Or.inr (Or.inr (by simpa [alKeys] using h))

/-- A push into a sorted bag map keeps it sorted. -/
theorem alSorted_alPushMsg (acc : List (String × Bag)) (key : String) (m : Msg)
    (hs : alSorted acc) : alSorted (alPushMsg acc key m) := by
  induction acc with
  | nil => simp [alPushMsg, alSorted]
  | cons p rest ih =>
    obtain ⟨k0, b0⟩ := p
    rw [alPushMsg]
    rcases hcmp : compare key k0 with hl | he | hg
    · refine List.pairwise_cons.mpr ⟨?_, hs⟩
      intro b hb
      simp [alKeys] at hb
      rcases hb with hb | hb
      · exact hb ▸ hcmp
      · exact strCmp_lt_trans key k0 b hcmp
          (alSorted_head_lt k0 b0 rest hs b (by simpa [alKeys] using hb))
    · exact hs
    · refine List.pairwise_cons.mpr ⟨?_, ih (alSorted_tail _ _ hs)⟩
      intro b hb
      have hb' : b = key ∨ b ∈ alKeys rest := by
        refine alKeys_alPushMsg rest key m b (by simpa [alKeys] using hb)
      rcases hb' with hb1 | hb'
      · exact hb1 ▸ (strCmp_gt_iff key k0).mp hcmp
      · exact alSorted_head_lt k0 b0 rest hs b hb'

/-- Looking a key up after a push: the pushed message is appended at the
pushed key, everything else is untouched (sorted maps only). -/
theorem alGet?_alPushMsg (acc : List (String × Bag)) (key : String) (m : Msg)
    (name : String) (hs : alSorted acc) :
    alGet? (alPushMsg acc key m) name =
      if key = name then some (alGetBag acc name ++ [m]) else alGet? acc name := by
  induction acc with
  | nil =>
    simp only [alPushMsg, alGet?, alGetBag, beq_iff_eq]
    by_cases h : key = name
    · subst h; simp
    · simp [h, fun he : name = key => h he.symm]
  | cons p rest ih =>
    obtain ⟨k0, b0⟩ := p
    rw [alPushMsg]
    rcases hcmp : compare key k0 with _ | _ | _
    · have hnone : alGet? ((k0, b0) :: rest) key = none := by
        refine alGet?_eq_none _ _ ?_
        intro x hx
        simp [alKeys] at hx
        rcases hx with rfl | hx
        · exact hcmp
        · exact strCmp_lt_trans key k0 x hcmp
            (alSorted_head_lt k0 b0 rest hs x (by simpa [alKeys] using hx))
      by_cases h : key = name
      · subst h
        have hb : alGetBag ((k0, b0) :: rest) key = [] := by
          rw [alGetBag, hnone]; rfl
        simp [alGet?, hb]
      · simp [alGet?, beq_iff_eq, h]
    · have hk : key = k0 := (strCmp_eq_iff key k0).mp hcmp
      subst hk
      by_cases h : key = name
      · subst h
        simp [alGet?, alGetBag]
      · simp [alGet?, beq_iff_eq, h]
    · have hne : key ≠ k0 := fun he2 => by
        rw [he2, strCmp_refl] at hcmp; cases hcmp
      by_cases h : k0 = name
      · subst h
        simp [alGet?, beq_iff_eq, fun he2 : key = k0 => hne he2]
      · simp only [alGet?, beq_iff_eq, if_neg h]
        rw [ih (alSorted_tail _ _ hs)]
        by_cases h2 : key = name
        · subst h2
          simp [alGetBag, alGet?, beq_iff_eq, if_neg h]
        · simp [h2]

/-- `alGetBag` version of `alGet?_alPushMsg`. -/
theorem alGetBag_alPushMsg (acc : List (String × Bag)) (key : String) (m : Msg)
    (name : String) (hs : alSorted acc) :
    alGetBag (alPushMsg acc key m) name =
      if key = name then alGetBag acc name ++ [m] else alGetBag acc name := by
  rw [alGetBag, alGet?_alPushMsg acc key m name hs]
  by_cases h : key = name
  · simp [h]
  · simp [h, alGetBag]

end Exdsdevs

namespace Exdsdevs

/-! ### Router lemmas (towards C7) -/

/-- The EIC inner loop keeps the bag map sorted. -/
theorem alSorted_routeEicMsgs (e : ExternalInputCoupling) (bag : Bag)
    (acc : List (String × Bag)) (hs : alSorted acc) :
    alSorted (routeEicMsgs e bag acc) := by
  induction bag generalizing acc with
  | nil => exact hs
  | cons msg rest ih =>
    rw [routeEicMsgs]
    split
    · exact ih _ (alSorted_alPushMsg _ _ _ hs)
    · exact ih _ hs

/-- One EIC edge appends exactly its matched, retagged messages to the
edge's destination bag, in message order. -/
theorem alGetBag_routeEicMsgs (e : ExternalInputCoupling) (bag : Bag)
    (acc : List (String × Bag)) (name : String) (hs : alSorted acc) :
    alGetBag (routeEicMsgs e bag acc) name =
      alGetBag acc name ++ eicMatches e bag name := by
  induction bag generalizing acc with
  | nil => simp [routeEicMsgs, eicMatches]
  | cons msg rest ih =>
    rw [routeEicMsgs]
    by_cases hp : e.source_port = msg.port
    · rw [if_pos (by simpa using hp)]
      rw [ih _ (alSorted_alPushMsg _ _ _ hs)]
      rw [alGetBag_alPushMsg _ _ _ _ hs]
      by_cases hd : e.destination_model = name
      · simp [eicMatches, hd, hp, List.filter_cons]
      · simp [eicMatches, hd, hp, List.filter_cons]
    · rw [if_neg (by simpa using hp)]
      rw [ih _ hs]
      by_cases hd : e.destination_model = name
      · simp [eicMatches, hd, hp, List.filter_cons]
      · simp [eicMatches, hd]

/-- The EIC pass keeps the bag map sorted. -/
theorem alSorted_routeEics (eics : List ExternalInputCoupling) (bag : Bag)
    (acc : List (String × Bag)) (hs : alSorted acc) :
    alSorted (routeEics eics bag acc) := by
  induction eics generalizing acc with
  | nil => exact hs
  | cons e rest ih => exact ih _ (alSorted_routeEicMsgs e bag acc hs)

/-- The EIC pass appends, per child, the edge-major concatenation of all
matched messages. -/
theorem alGetBag_routeEics (eics : List ExternalInputCoupling) (bag : Bag)
    (acc : List (String × Bag)) (name : String) (hs : alSorted acc) :
    alGetBag (routeEics eics bag acc) name =
      alGetBag acc name ++ eicRouted eics bag name := by
  induction eics generalizing acc with
  | nil => simp [routeEics, eicRouted]
  | cons e rest ih =>
    rw [routeEics, ih _ (alSorted_routeEicMsgs e bag acc hs),
      alGetBag_routeEicMsgs e bag acc name hs]
    simp [eicRouted, List.append_assoc]

/-- The IC innermost loop keeps the bag map sorted. -/
theorem alSorted_routeIcMsgs (ic : InternalCoupling) (bag : Bag)
    (acc : List (String × Bag)) (hs : alSorted acc) :
    alSorted (routeIcMsgs ic bag acc) := by
  induction bag generalizing acc with
  | nil => exact hs
  | cons msg rest ih =>
    rw [routeIcMsgs]
    split
    · exact ih _ (alSorted_alPushMsg _ _ _ hs)
    · exact ih _ hs

/-- One IC edge against one output bag appends exactly its matched,
retagged messages, in message order. -/
theorem alGetBag_routeIcMsgs (ic : InternalCoupling) (bag : Bag)
    (acc : List (String × Bag)) (name : String) (hs : alSorted acc) :
    alGetBag (routeIcMsgs ic bag acc) name =
      alGetBag acc name ++
        (if ic.destination_model = name then
          (bag.filter (fun m => m.port == ic.source_model_port)).map
            (fun m => ⟨ic.destination_model_port, m.value⟩)
        else []) := by
  induction bag generalizing acc with
  | nil => simp [routeIcMsgs]
  | cons msg rest ih =>
    rw [routeIcMsgs]
    by_cases hp : msg.port = ic.source_model_port
    · rw [if_pos (by simpa using hp)]
      rw [ih _ (alSorted_alPushMsg _ _ _ hs)]
      rw [alGetBag_alPushMsg _ _ _ _ hs]
      by_cases hd : ic.destination_model = name
      · simp [hd, hp, List.filter_cons]
      · simp [hd, hp, List.filter_cons]
    · rw [if_neg (by simpa using hp)]
      rw [ih _ hs]
      by_cases hd : ic.destination_model = name
      · simp [hd, hp, List.filter_cons]
      · simp [hd]

/-- The IC mail loop keeps the bag map sorted. -/
theorem alSorted_routeIcMail (ic : InternalCoupling) (mail : Mail)
    (acc : List (String × Bag)) (hs : alSorted acc) :
    alSorted (routeIcMail ic mail acc) := by
  induction mail generalizing acc with
  | nil => exact hs
  | cons item rest ih =>
    rw [routeIcMail]
    split
    · exact ih _ (alSorted_routeIcMsgs _ _ _ hs)
    · exact ih _ hs

/-- One IC edge against the whole mail appends exactly its matched
messages, mail-item by mail-item. -/
theorem alGetBag_routeIcMail (ic : InternalCoupling) (mail : Mail)
    (acc : List (String × Bag)) (name : String) (hs : alSorted acc) :
    alGetBag (routeIcMail ic mail acc) name =
      alGetBag acc name ++ icMatches ic mail name := by
  induction mail generalizing acc with
  | nil => simp [routeIcMail, icMatches]
  | cons item rest ih =>
    rw [routeIcMail]
    by_cases hsrc : ic.source_model = item.model_name
    · rw [if_pos (by simpa using hsrc)]
      rw [ih _ (alSorted_routeIcMsgs _ _ _ hs)]
      rw [alGetBag_routeIcMsgs _ _ _ _ hs]
      by_cases hd : ic.destination_model = name
      · simp [icMatches, hd, hsrc, List.append_assoc]
      · simp [icMatches, hd]
    · rw [if_neg (by simpa using hsrc)]
      rw [ih _ hs]
      by_cases hd : ic.destination_model = name
      · simp [icMatches, hd, hsrc]
      · simp [icMatches, hd]

/-- The IC pass keeps the bag map sorted. -/
theorem alSorted_routeIcs (ics : List InternalCoupling) (mail : Mail)
    (acc : List (String × Bag)) (hs : alSorted acc) :
    alSorted (routeIcs ics mail acc) := by
  induction ics generalizing acc with
  | nil => exact hs
  | cons ic rest ih => exact ih _ (alSorted_routeIcMail ic mail acc hs)

/-- The IC pass appends, per child, the edge-major concatenation of all
matched mail messages. -/
theorem alGetBag_routeIcs (ics : List InternalCoupling) (mail : Mail)
    (acc : List (String × Bag)) (name : String) (hs : alSorted acc) :
    alGetBag (routeIcs ics mail acc) name =
      alGetBag acc name ++ icRouted ics mail name := by
  induction ics generalizing acc with
  | nil => simp [routeIcs, icRouted]
  | cons ic rest ih =>
    rw [routeIcs, ih _ (alSorted_routeIcMail ic mail acc hs),
      alGetBag_routeIcMail ic mail acc name hs]
    simp [icRouted, List.append_assoc]

/-- The routed bag map is sorted, hence has pairwise-distinct keys. -/
theorem alSorted_get_submodels_x_bags (eics : List ExternalInputCoupling)
    (ics : List InternalCoupling) (x_bag : Bag) (mail : Mail) :
    alSorted (get_submodels_x_bags eics ics x_bag mail) := by
  exact alSorted_routeIcs ics mail _ (alSorted_routeEics eics x_bag [] (by simp [alSorted]))

end Exdsdevs

namespace Exdsdevs

/-! ## Claim C7: the router law -/

/-- **C7.**  For any parent input `x_bag` and collected `mail`, each
child's computed inbound bag is exactly the concatenation of the
EIC-matched messages (edge-major, messages in observation order) followed
by the IC-matched messages (edge-major, mail order): every message is
produced by exactly one matching edge applied to exactly one source
message — none invented, none dropped — EIC-routed messages precede
IC-routed ones, and each message in the bag is traceable to a matching
edge and source message. -/
theorem c7_router_law (eics : List ExternalInputCoupling)
    (ics : List InternalCoupling) (x_bag : Bag) (mail : Mail) (name : String) :
    alGetBag (get_submodels_x_bags eics ics x_bag mail) name =
      eicRouted eics x_bag name ++ icRouted ics mail name ∧
    (∀ msg ∈ alGetBag (get_submodels_x_bags eics ics x_bag mail) name,
      (∃ e ∈ eics, ∃ m ∈ x_bag, e.destination_model = name ∧
        e.source_port = m.port ∧ msg = ⟨e.destination_model_port, m.value⟩) ∨
      (∃ ic ∈ ics, ∃ item ∈ mail, ∃ m ∈ item.y_bag,
        ic.destination_model = name ∧ ic.source_model = item.model_name ∧
        m.port = ic.source_model_port ∧ msg = ⟨ic.destination_model_port, m.value⟩)) := by
  have heq : alGetBag (get_submodels_x_bags eics ics x_bag mail) name =
      eicRouted eics x_bag name ++ icRouted ics mail name := by
    rw [get_submodels_x_bags,
      alGetBag_routeIcs ics mail _ name (alSorted_routeEics eics x_bag [] (by simp [alSorted])),
      alGetBag_routeEics eics x_bag [] name (by simp [alSorted])]
    simp [alGetBag, alGet?]
  refine ⟨heq, ?_⟩
  intro msg hmsg
  rw [heq] at hmsg
  rcases List.mem_append.mp hmsg with hm | hm
  · left
    rw [eicRouted] at hm
    rcases List.mem_flatten.mp hm with ⟨b, hb, hmb⟩
    rcases List.mem_map.mp hb with ⟨e, he, rfl⟩
    rw [eicMatches] at hmb
    by_cases hd : e.destination_model = name
    · rw [if_pos (by simpa using hd)] at hmb
      rcases List.mem_map.mp hmb with ⟨m, hmf, rfl⟩
      rcases List.mem_filter.mp hmf with ⟨hmx, hport⟩
      exact ⟨e, he, m, hmx, hd, by simpa using hport, rfl⟩
    · rw [if_neg (by simpa using hd)] at hmb
      cases hmb
  · right
    rw [icRouted] at hm
    rcases List.mem_flatten.mp hm with ⟨b, hb, hmb⟩
    rcases List.mem_map.mp hb with ⟨ic, hic, rfl⟩
    rw [icMatches] at hmb
    by_cases hd : ic.destination_model = name
    · rw [if_pos (by simpa using hd)] at hmb
      rcases List.mem_flatten.mp hmb with ⟨b2, hb2, hmb2⟩
      rcases List.mem_map.mp hb2 with ⟨item, hitem, rfl⟩
      by_cases hsrc : ic.source_model = item.model_name
      · rw [if_pos (by simpa using hsrc)] at hmb2
        rcases List.mem_map.mp hmb2 with ⟨m, hmf, rfl⟩
        rcases List.mem_filter.mp hmf with ⟨hmy, hport⟩
        exact ⟨ic, hic, item, hitem, m, hmy, hd, hsrc, by simpa using hport, rfl⟩
      · rw [if_neg (by simpa using hsrc)] at hmb2
        cases hmb2
    · rw [if_neg (by simpa using hd)] at hmb
      cases hmb

/-- Witness for C7 on a concrete router input: one EIC edge and one IC
edge targeting child `c`; the computed bag puts the EIC-routed message
before the IC-routed one. -/
theorem c7_router_law_witness :
    alGetBag (get_submodels_x_bags [⟨"in", "c", "p"⟩] [⟨"a", "out", "c", "q"⟩]
        [⟨"in", Value.num 1⟩] [⟨"a", [⟨"out", Value.num 2⟩]⟩]) "c" =
      eicRouted [⟨"in", "c", "p"⟩] [⟨"in", Value.num 1⟩] "c" ++
        icRouted [⟨"a", "out", "c", "q"⟩] [⟨"a", [⟨"out", Value.num 2⟩]⟩] "c" ∧
    alGetBag (get_submodels_x_bags [⟨"in", "c", "p"⟩] [⟨"a", "out", "c", "q"⟩]
        [⟨"in", Value.num 1⟩] [⟨"a", [⟨"out", Value.num 2⟩]⟩]) "c" =
      [⟨"p", Value.num 1⟩, ⟨"q", Value.num 2⟩] :=
  ⟨(c7_router_law [⟨"in", "c", "p"⟩] [⟨"a", "out", "c", "q"⟩]
      [⟨"in", Value.num 1⟩] [⟨"a", [⟨"out", Value.num 2⟩]⟩] "c").1, rfl⟩

end Exdsdevs

namespace Exdsdevs

/-! ### Small facts about `Time` operations and tree measures -/

/-- `Time.sub` only fails with `overflow`. -/
theorem Time.sub_error (a b : Time) (e : Time.Err) (h : Time.sub a b = .error e) :
    e = .overflow := by
  cases a <;> cases b <;> simp [Time.sub] at h <;> first
    | exact h.symm
    | (split at h
       · cases h
       · injection h with h1; exact h1.symm)

/-- `Time.add` only fails with `overflow`. -/
theorem Time.add_error (a b : Time) (e : Time.Err) (h : Time.add a b = .error e) :
    e = .overflow := by
  cases a <;> cases b <;> simp [Time.add] at h <;> first
    | exact h.symm
    | (split at h
       · cases h
       · injection h with h1; exact h1.symm)

/-- The source's `==` on `Time` is symmetric (even though it is not
reflexive at `StopSim`). -/
theorem Time.beq_symm (a b : Time) : Time.beq a b = Time.beq b a := by
  cases a <;> cases b <;> simp only [Time.beq, Time.cmp] <;>
    first
    | rfl
    | (rename_i l r
       rcases lt_trichotomy l r with h | h | h
       · rw [(compare_lt_iff_lt).mpr h, (compare_gt_iff_gt).mpr h]; rfl
       · subst h; rfl
       · rw [(compare_gt_iff_gt).mpr h, (compare_lt_iff_lt).mpr h]; rfl)

/-- A child is at most as high as the maximum over the list. -/
theorem heightS_le_of_mem {St Rng : Type} (subs : List (String × Simulator St Rng))
    (n : String) (s : Simulator St Rng) (h : (n, s) ∈ subs) :
    heightS s ≤ heightL subs := by
  induction subs with
  | nil => cases h
  | cons p rest ih =>
    obtain ⟨k, x⟩ := p
    rw [heightL]
    rcases List.mem_cons.mp h with h1 | h1
    · injection h1 with h2 h3
      subst h3
      exact le_max_left _ _
    · exact le_trans (ih h1) (le_max_right _ _)

/-- Keys are untouched by an in-place update. -/
theorem alKeys_alUpdate {α : Type} (l : List (String × α)) (key : String) (v : α) :
    alKeys (alUpdate l key v) = alKeys l := by
  induction l with
  | nil => rfl
  | cons p rest ih =>
    obtain ⟨k, w⟩ := p
    rw [alUpdate]
    split
    · rfl
    · simp [alKeys] at ih ⊢
      exact ih

/-- A stored child's name, and all names below it, occur in the names
below the list. -/
theorem namesBelow_of_alGet {St Rng : Type} (subs : List (String × Simulator St Rng))
    (name : String) (child : Simulator St Rng) (h : alGet? subs name = some child) :
    child.core.full_name ∈ namesBelowL subs ∧
      ∀ x ∈ namesBelow child, x ∈ namesBelowL subs := by
  induction subs with
  | nil => cases h
  | cons p rest ih =>
    obtain ⟨k, s⟩ := p
    rw [alGet?] at h
    split at h
    · injection h with h1
      subst h1
      constructor
      · simp [namesBelowL]
      · intro x hx
        simp [namesBelowL]
        tauto
    · rcases ih h with ⟨h1, h2⟩
      constructor
      · simp [namesBelowL]; tauto
      · intro x hx
        have := h2 x hx
        simp [namesBelowL] at this ⊢
        tauto

/-- An update that preserves a child's name structure preserves the names
below the list. -/
theorem namesBelowL_alUpdate {St Rng : Type} (subs : List (String × Simulator St Rng))
    (name : String) (child child' : Simulator St Rng)
    (hget : alGet? subs name = some child)
    (h1 : child'.core.full_name = child.core.full_name)
    (h2 : namesBelow child' = namesBelow child) :
    namesBelowL (alUpdate subs name child') = namesBelowL subs := by
  induction subs with
  | nil => rfl
  | cons p rest ih =>
    obtain ⟨k, s⟩ := p
    rw [alGet?] at hget
    rw [alUpdate]
    split
    · rename_i hk
      rw [if_pos hk] at hget
      injection hget with hs
      subst hs
      simp [namesBelowL, h1, h2]
    · rename_i hk
      rw [if_neg hk] at hget
      simp [namesBelowL, ih hget]

end Exdsdevs

namespace Exdsdevs

/-! ### Name preservation and error attribution (towards C4) -/

/-- `runOnChildren` preserves the child names and keys when each call
does. -/
theorem runOnChildren_names {St Rng : Type}
    (recurse : Bag → Simulator St Rng → Rng → Except Time.Err (Simulator St Rng × Rng))
    (hrec : ∀ b s r s' r', recurse b s r = .ok (s', r') →
      s'.core.full_name = s.core.full_name ∧ namesBelow s' = namesBelow s) :
    ∀ (tasks : List (String × Bag)) (subs : List (String × Simulator St Rng))
      (rng : Rng) (subs' : List (String × Simulator St Rng)) (rng' : Rng),
      runOnChildren recurse tasks subs rng = .ok (subs', rng') →
      namesBelowL subs' = namesBelowL subs ∧ alKeys subs' = alKeys subs := by
  intro tasks
  induction tasks with
  | nil =>
    intro subs rng subs' rng' h
    rw [runOnChildren] at h
    injection h with h1
    injection h1 with h2 h3
    subst h2
    exact ⟨rfl, rfl⟩
  | cons task rest ih =>
    intro subs rng subs' rng' h
    obtain ⟨name, bag⟩ := task
    rw [runOnChildren] at h
    split at h
    · simp at h
    · rename_i child hget
      split at h
      · simp at h
      · rename_i child' rng2 hcall
        rcases hrec bag child rng child' rng2 hcall with ⟨hn1, hn2⟩
        rcases ih _ _ _ _ h with ⟨ha, hb⟩
        refine ⟨?_, ?_⟩
        · rw [ha, namesBelowL_alUpdate subs name child child' hget hn1 hn2]
        · rw [hb, alKeys_alUpdate]

/-- A successful `process_x_messages` keeps the node's full name and the
set of names below it. -/
theorem processX_preserves_names {St Rng : Type} :
    ∀ (fuel : Nat) (t : Time) (bag : Bag) (sim : Simulator St Rng)
      (rng : Rng) (sim' : Simulator St Rng) (rng' : Rng),
      process_x_messages fuel t bag sim rng = .ok (sim', rng') →
      sim'.core.full_name = sim.core.full_name ∧ namesBelow sim' = namesBelow sim := by
  intro fuel
  induction fuel with
  | zero => intro t bag sim rng sim' rng' h; simp [process_x_messages] at h
  | succ fuel ih =>
    intro t bag sim rng sim' rng' h
    obtain ⟨c, subs⟩ := sim
    rw [process_x_messages] at h
    split at h
    · split at h
      · simp at h
      · rw [processXFinish] at h
        split at h
        · simp at h
        · split at h
          · injection h with h1
            injection h1 with h2 h3
            subst h2
            exact ⟨rfl, rfl⟩
          · split at h
            · simp at h
            · rename_i subs2 rng2 hsent
              injection h with h1
              injection h1 with h2 h3
              subst h2
              have hnames := runOnChildren_names (process_x_messages fuel t)
                (fun b s r s' r' hc => ih t b s r s' r' hc) _ _ _ _ _ hsent
              exact ⟨rfl, hnames.1⟩
    · simp at h

/-- A `badSyncProcess` error out of `runOnChildren` is attributed to a
name inside the child list. -/
theorem runOnChildren_badSync {St Rng : Type}
    (recurse : Bag → Simulator St Rng → Rng → Except Time.Err (Simulator St Rng × Rng))
    (hrecn : ∀ b s r s' r', recurse b s r = .ok (s', r') →
      s'.core.full_name = s.core.full_name ∧ namesBelow s' = namesBelow s)
    (hrece : ∀ b s r n, recurse b s r = .error (.badSyncProcess n) →
      n = s.core.full_name ∨ n ∈ namesBelow s) :
    ∀ (tasks : List (String × Bag)) (subs : List (String × Simulator St Rng))
      (rng : Rng) (n : String),
      runOnChildren recurse tasks subs rng = .error (.badSyncProcess n) →
      n ∈ namesBelowL subs := by
  intro tasks
  induction tasks with
  | nil => intro subs rng n h; rw [runOnChildren] at h; simp at h
  | cons task rest ih =>
    intro subs rng n h
    obtain ⟨name, bag⟩ := task
    rw [runOnChildren] at h
    split at h
    · injection h with h1
      simp at h1
    · rename_i child hget
      split at h
      · rename_i e hcall
        injection h with h1
        subst h1
        rcases hrece bag child rng n hcall with h2 | h2
        · exact h2 ▸ (namesBelow_of_alGet subs name child hget).1
        · exact (namesBelow_of_alGet subs name child hget).2 n h2
      · rename_i child' rng2 hcall
        rcases hrecn bag child rng child' rng2 hcall with ⟨hn1, hn2⟩
        have := ih _ _ _ h
        rwa [namesBelowL_alUpdate subs name child child' hget hn1 hn2] at this

/-- A `badSyncProcess` error out of `process_x_messages` names the node
itself or one of its strict descendants. -/
theorem processX_badSync_name {St Rng : Type} :
    ∀ (fuel : Nat) (t : Time) (bag : Bag) (sim : Simulator St Rng)
      (rng : Rng) (n : String),
      process_x_messages fuel t bag sim rng = .error (.badSyncProcess n) →
      n = sim.core.full_name ∨ n ∈ namesBelow sim := by
  intro fuel
  induction fuel with
  | zero =>
    intro t bag sim rng n h
    rw [process_x_messages] at h
    injection h with h1
    simp at h1
  | succ fuel ih =>
    intro t bag sim rng n h
    obtain ⟨c, subs⟩ := sim
    rw [process_x_messages] at h
    split at h
    · split at h
      · rename_i e hsub
        injection h with h1
        subst h1
        have := Time.sub_error _ _ _ hsub
        simp at this
      · rw [processXFinish] at h
        split at h
        · rename_i e hadd
          injection h with h1
          subst h1
          have := Time.add_error _ _ _ hadd
          simp at this
        · split at h
          · simp at h
          · split at h
            · rename_i e hsent
              injection h with h1
              subst h1
              refine Or.inr ?_
              exact runOnChildren_badSync (process_x_messages fuel t)
                (fun b s r s' r' hc => processX_preserves_names fuel t b s r s' r' hc)
                (fun b s r n2 hc => ih t b s r n2 hc) _ _ _ _ hsent
            · simp at h
    · injection h with h1
      injection h1 with h2
      exact Or.inl h2.symm

end Exdsdevs

namespace Exdsdevs

/-- `collectLoop` succeeds when every imminent child collects
successfully. -/
theorem collectLoop_ok {St Rng : Type}
    (recurse : Simulator St Rng → Except Time.Err (Bag × Simulator St Rng)) (t : Time) :
    ∀ (subs : List (String × Simulator St Rng)) (imm : List String) (mail : Mail),
      (∀ nm s, (nm, s) ∈ subs → Time.beq s.t_next t = true → ∃ r, recurse s = .ok r) →
      ∃ res, collectLoop recurse t subs imm mail = .ok res := by
  intro subs
  induction subs with
  | nil => intro imm mail hc; exact ⟨_, rfl⟩
  | cons p rest ih =>
    intro imm mail hc
    obtain ⟨nm, s⟩ := p
    rw [collectLoop]
    by_cases hb : Time.beq s.t_next t = true
    · rw [if_pos hb]
      rcases hc nm s (by simp) hb with ⟨⟨y, s2⟩, hr⟩
      rw [hr]
      dsimp only
      rcases ih (if nm ∈ imm then imm else imm ++ [nm]) (mail ++ [⟨nm, y⟩])
        (fun nm2 s3 hm hb2 => hc nm2 s3 (by simp [hm]) hb2) with ⟨⟨a, b, cc⟩, hres⟩
      rw [hres]
      exact ⟨_, rfl⟩
    · rw [if_neg hb]
      rcases ih imm mail (fun nm2 s3 hm hb2 => hc nm2 s3 (by simp [hm]) hb2) with
        ⟨⟨a, b, cc⟩, hres⟩
      rw [hres]
      exact ⟨_, rfl⟩

/-- With adequate fuel, `collect_outputs` succeeds whenever `sim_time` is
`t_next_self` or `t_next` — in particular no synchronization panic is
raised anywhere in the subtree, because every recursively visited child
satisfies `child.t_next == sim_time`. -/
theorem collect_ok {St Rng : Type} :
    ∀ (fuel : Nat) (sim : Simulator St Rng) (t : Time),
      heightS sim ≤ fuel →
      (Time.beq t sim.core.t_next_self = true ∨ Time.beq t sim.core.t_next = true) →
      ∃ r, collect_outputs fuel t sim = .ok r := by
  intro fuel
  induction fuel with
  | zero =>
    intro sim t hh hb
    obtain ⟨c, subs⟩ := sim
    rw [heightS] at hh
    omega
  | succ fuel ih =>
    intro sim t hh hb
    obtain ⟨c, subs⟩ := sim
    rw [collect_outputs]
    by_cases h1 : Time.beq t c.t_next_self = true
    · rw [if_pos h1]
      exact ⟨_, rfl⟩
    · have h2 : Time.beq t c.t_next = true := by
        rcases hb with hb | hb
        · exact absurd hb h1
        · exact hb
      rw [if_neg h1, if_pos h2]
      have hloop : ∃ res, collectLoop (collect_outputs fuel t) t subs c.imminent c.mail
          = .ok res := by
        apply collectLoop_ok
        intro nm s hmem hbeq
        apply ih s t
        · have hle : heightS s ≤ heightL subs := heightS_le_of_mem _ _ _ hmem
          rw [heightS] at hh
          omega
        · right
          rw [Time.beq_symm]
          exact hbeq
      rcases hloop with ⟨⟨subs2, imm2, mail2⟩, hres⟩
      rw [hres]
      exact ⟨_, rfl⟩

/-! ## Claim C4: synchronization errors -/

/-- **C4.**  `process_x_messages` raises its fatal synchronization panic
exactly when `sim_time` is outside `[t_last, t_next_self]` (the window
being tested with the source's own comparison operators): outside the
window the call fails with the node's `badSyncProcess` panic no matter
what behaviour the node carries (no transition function is invoked), and
inside the window that panic is never produced (given the node's name is
not reused below it).  `collect_outputs` raises its fatal synchronization
panic exactly when `sim_time` is neither `t_next_self` nor `t_next`: in
that case it fails for every behaviour (no output function is invoked),
and otherwise — with fuel at least the tree height — it succeeds
outright. -/
theorem c4_sync_errors {St Rng : Type} (fuel : Nat) (t : Time) (bag : Bag)
    (c : SimCore St Rng) (subs : List (String × Simulator St Rng)) (rng : Rng) :
    ((Time.ge t c.t_last && Time.le t c.t_next_self) = false →
      process_x_messages (fuel + 1) t bag (.mk c subs) rng =
        .error (.badSyncProcess c.full_name) ∧
      ∀ d, process_x_messages (fuel + 1) t bag ((Simulator.mk c subs).setDyn d) rng =
        .error (.badSyncProcess c.full_name)) ∧
    ((Time.ge t c.t_last && Time.le t c.t_next_self) = true →
      c.full_name ∉ namesBelowL subs →
      process_x_messages (fuel + 1) t bag (.mk c subs) rng ≠
        .error (.badSyncProcess c.full_name)) ∧
    (Time.beq t c.t_next_self = false → Time.beq t c.t_next = false →
      collect_outputs (fuel + 1) t (.mk c subs) = .error (.badSyncCollect c.full_name) ∧
      ∀ d, collect_outputs (fuel + 1) t ((Simulator.mk c subs).setDyn d) =
        .error (.badSyncCollect c.full_name)) ∧
    ((Time.beq t c.t_next_self = true ∨ Time.beq t c.t_next = true) →
      heightS (Simulator.mk c subs) ≤ fuel + 1 →
      ∃ r, collect_outputs (fuel + 1) t (.mk c subs) = .ok r) := by
  refine ⟨?_, ?_, ?_, ?_⟩
  · intro hg
    constructor
    · rw [process_x_messages, if_neg (by simp [hg])]
    · intro d
      rw [Simulator.setDyn, process_x_messages, if_neg (by simp [hg])]
  · intro hg hfresh h
    rcases processX_badSync_name (fuel + 1) t bag (.mk c subs) rng c.full_name h with
      h1 | h1
    · rw [process_x_messages, if_pos hg] at h
      split at h
      · rename_i e hsub
        injection h with h2
        subst h2
        have := Time.sub_error _ _ _ hsub
        simp at this
      · rw [processXFinish] at h
        split at h
        · rename_i e hadd
          injection h with h2
          subst h2
          have := Time.add_error _ _ _ hadd
          simp at this
        · split at h
          · simp at h
          · split at h
            · rename_i e hsent
              injection h with h2
              subst h2
              exact hfresh (runOnChildren_badSync (process_x_messages fuel t)
                (fun b s r s' r' hc => processX_preserves_names fuel t b s r s' r' hc)
                (fun b s r n2 hc => processX_badSync_name fuel t b s r n2 hc)
                _ _ _ _ hsent)
            · simp at h
    · exact hfresh h1
  · intro h1 h2
    constructor
    · rw [collect_outputs, if_neg (by simp [h1]), if_neg (by simp [h2])]
    · intro d
      rw [Simulator.setDyn, collect_outputs, if_neg (by simp [h1]), if_neg (by simp [h2])]
  · intro hb hh
    exact collect_ok (fuel + 1) (.mk c subs) t hh hb

/-- Witness for C4 at the concrete atomic node `c4Sim` (window
`[4, 7]`): the call at `t = 3` panics, at `t = 9` panics, `collect` at
`t = 3` panics, and `collect` at `t = 7` succeeds. -/
theorem c4_sync_errors_witness :
    process_x_messages 1 (.Value 3) [] c4Sim () = .error (.badSyncProcess "w4") ∧
    process_x_messages 1 (.Value 5) [] c4Sim () ≠ .error (.badSyncProcess "w4") ∧
    collect_outputs 1 (.Value 3) c4Sim = .error (.badSyncCollect "w4") ∧
    ∃ r, collect_outputs 1 (.Value 7) c4Sim = .ok r := by
  refine ⟨?_, ?_, ?_, ?_⟩
  · exact ((c4_sync_errors 0 (.Value 3) [] (baseCore "w4" trivDyn (.Value 4) (.Value 7)
      (.Value 7)) [] ()).1 (by decide)).1
  · exact (c4_sync_errors 0 (.Value 5) [] (baseCore "w4" trivDyn (.Value 4) (.Value 7)
      (.Value 7)) [] ()).2.1 (by decide) (by simp [namesBelowL])
  · exact ((c4_sync_errors 0 (.Value 3) [] (baseCore "w4" trivDyn (.Value 4) (.Value 7)
      (.Value 7)) [] ()).2.2.1 (by decide) (by decide)).1
  · exact (c4_sync_errors 0 (.Value 7) [] (baseCore "w4" trivDyn (.Value 4) (.Value 7)
      (.Value 7)) [] ()).2.2.2 (Or.inl (by decide)) (by simp [heightS, heightL])

end Exdsdevs

namespace Exdsdevs

/-! ### Child-dispatch lemmas (towards C9) -/

/-- Updating a present key stores the new value. -/
theorem alGet?_alUpdate_self {α : Type} (l : List (String × α)) (k : String)
    (v0 v : α) (h : alGet? l k = some v0) :
    alGet? (alUpdate l k v) k = some v := by
  induction l with
  | nil => cases h
  | cons p rest ih =>
    obtain ⟨k0, w⟩ := p
    rw [alGet?] at h
    rw [alUpdate]
    split
    · rename_i hk
      rw [alGet?, if_pos hk]
    · rename_i hk
      rw [if_neg hk] at h
      rw [alGet?, if_neg hk]
      exact ih h

/-- Updating one key leaves every other key's value unchanged. -/
theorem alGet?_alUpdate_ne {α : Type} (l : List (String × α)) (k k2 : String)
    (v : α) (h : k ≠ k2) : alGet? (alUpdate l k v) k2 = alGet? l k2 := by
  induction l with
  | nil => rfl
  | cons p rest ih =>
    obtain ⟨k0, w⟩ := p
    rw [alUpdate]
    split
    · rename_i hk
      rw [alGet?, alGet?]
      have : ¬(k0 == k2) = true := by
        simp only [beq_iff_eq] at hk ⊢
        exact fun he => h (hk.symm ▸ he)
      rw [if_neg this, if_neg this]
    · rw [alGet?, alGet?]
      split
      · rfl
      · exact ih

/-- `runOnChildren` does not touch children outside the task list. -/
theorem runOnChildren_preserve_lookup {St Rng : Type}
    (recurse : Bag → Simulator St Rng → Rng → Except Time.Err (Simulator St Rng × Rng)) :
    ∀ (tasks : List (String × Bag)) (subs : List (String × Simulator St Rng))
      (rng : Rng) (subs' : List (String × Simulator St Rng)) (rng' : Rng) (name : String),
      name ∉ tasks.map Prod.fst →
      runOnChildren recurse tasks subs rng = .ok (subs', rng') →
      alGet? subs' name = alGet? subs name := by
  intro tasks
  induction tasks with
  | nil =>
    intro subs rng subs' rng' name hn h
    rw [runOnChildren] at h
    injection h with h1
    injection h1 with h2 h3
    subst h2
    rfl
  | cons task rest ih =>
    intro subs rng subs' rng' name hn h
    obtain ⟨n0, b0⟩ := task
    have hne : name ≠ n0 := by
      intro he
      exact hn (by simp [he])
    rw [runOnChildren] at h
    split at h
    · simp at h
    · rename_i child hget
      split at h
      · simp at h
      · rename_i child' rng2 hcall
        rw [ih _ _ _ _ _ (fun hm => hn (by simp [hm])) h]
        exact alGet?_alUpdate_ne _ _ _ _ (fun he => hne he.symm)

/-- Each task's child is processed exactly once: with pairwise-distinct
task names, the final map stores, at each task's name, the output of one
`recurse` call on the original child with that task's bag. -/
theorem runOnChildren_lookup {St Rng : Type}
    (recurse : Bag → Simulator St Rng → Rng → Except Time.Err (Simulator St Rng × Rng)) :
    ∀ (tasks : List (String × Bag)) (subs : List (String × Simulator St Rng))
      (rng : Rng) (subs' : List (String × Simulator St Rng)) (rng' : Rng)
      (name : String) (bag : Bag) (child : Simulator St Rng),
      runOnChildren recurse tasks subs rng = .ok (subs', rng') →
      (tasks.map Prod.fst).Nodup →
      (name, bag) ∈ tasks →
      alGet? subs name = some child →
      ∃ r r' child', recurse bag child r = .ok (child', r') ∧
        alGet? subs' name = some child' := by
  intro tasks
  induction tasks with
  | nil => intro _ _ _ _ _ _ _ _ _ hmem; cases hmem
  | cons task rest ih =>
    intro subs rng subs' rng' name bag child h hnd hmem hget
    obtain ⟨n0, b0⟩ := task
    rw [runOnChildren] at h
    split at h
    · simp at h
    · rename_i child0 hget0
      split at h
      · simp at h
      · rename_i child0' rng2 hcall
        rw [List.map_cons] at hnd
        have hn0 : n0 ∉ rest.map Prod.fst := (List.nodup_cons.mp hnd).1
        have hndr : (rest.map Prod.fst).Nodup := (List.nodup_cons.mp hnd).2
        rcases List.mem_cons.mp hmem with h1 | h1
        · injection h1 with h2 h3
          subst h2
          subst h3
          rw [hget0] at hget
          injection hget with hg
          subst hg
          refine ⟨rng, rng2, child0', hcall, ?_⟩
          rw [runOnChildren_preserve_lookup recurse rest _ _ _ _ name hn0 h]
          exact alGet?_alUpdate_self _ _ _ _ hget0
        · have hne : name ≠ n0 := by
            intro he
            subst he
            exact hn0 (List.mem_map_of_mem Prod.fst h1)
          refine ih _ _ _ _ name bag child h hndr h1 ?_
          rw [alGet?_alUpdate_ne _ _ _ _ (fun he => hne he.symm)]
          exact hget

/-- Sorted maps have pairwise-distinct keys. -/
theorem alSorted_nodup_keys {α : Type} (l : List (String × α)) (hs : alSorted l) :
    (alKeys l).Nodup := by
  refine List.Pairwise.imp ?_ hs
  intro a b hab
  exact strCmp_lt_ne a b hab

/-- `processXFinish` installs the transition's state unchanged. -/
theorem processXFinish_st {St Rng : Type}
    (recurse : Bag → Simulator St Rng → Rng → Except Time.Err (Simulator St Rng × Rng))
    (t : Time) (x_bag : Bag) (c : SimCore St Rng)
    (subs : List (String × Simulator St Rng)) (st1 : St) (rng1 : Rng)
    (sim' : Simulator St Rng) (rng' : Rng)
    (h : processXFinish recurse t x_bag c subs st1 rng1 = .ok (sim', rng')) :
    sim'.core.st = st1 := by
  unfold processXFinish at h
  split at h
  · exact absurd h (by simp)
  · split at h
    · injection h with h1
      injection h1 with hsim hrng
      subst hsim
      rfl
    · split at h
      · exact absurd h (by simp)
      · injection h with h1
        injection h1 with hsim hrng
        subst hsim
        rfl

/-- With an *empty* bag the fired transition is the internal one when
`sim_time == t_next_self` and the external one otherwise — never the
confluent one. -/
theorem processX_empty_dispatch {St Rng : Type} (fuel : Nat) (t : Time)
    (sim : Simulator St Rng) (rng : Rng) (sim' : Simulator St Rng) (rng' : Rng)
    (h : process_x_messages fuel t [] sim rng = .ok (sim', rng')) :
    ∃ e, Time.sub t sim.core.t_last = .ok e ∧
      sim'.core.st = (if Time.beq t sim.core.t_next_self = true then
          sim.core.dyn.internal_transition sim.core.st t rng
        else sim.core.dyn.external_transition sim.core.st t e [] rng).1 := by
  match fuel, sim with
  | 0, _ => simp [process_x_messages] at h
  | fuel + 1, .mk c subs =>
    rw [process_x_messages] at h
    split at h
    · split at h
      · exact absurd h (by simp)
      · rename_i e hsub
        refine ⟨e, hsub, ?_⟩
        simp only [Simulator.core]
        have hst := processXFinish_st _ _ _ _ _ _ _ _ _ h
        by_cases hb : Time.beq t c.t_next_self = true
        · rw [if_pos hb]
          simpa [hb] using hst
        · rw [if_neg hb]
          simpa [hb] using hst
    · exact absurd h (by simp)

end Exdsdevs

namespace Exdsdevs

/-! ## Claim C9: imminent children without routed input -/

/-- **C9, counterexample.**  The claim says every imminent child with no
routed input "undergoes its internal transition".  Take the tree
`p → c → g` where only the atomic grandchild `g` is imminent at `t = 5`,
so the coupled middle node `c` is imminent (`c.t_next = 5`) while passive
itself (`c.t_next_self = Inf`).  After `collect_outputs(5)` and
`process_x_messages(5, ∅)` on `p`, the child `c` — imminent and without a
routed bag — ends in state `2 = 10·0 + 2`: its *external* transition
fired (with the empty bag), not its internal one; `g` ends in state `1`
(internal). -/
theorem c9_counterexample :
    ((collect_outputs 3 (.Value 5) c9P).bind (fun r =>
      process_x_messages 3 (.Value 5) [] r.2 ())).map
      (fun p => ((alGet? p.1.subs "c").map (fun cs => cs.core.st),
        (alGet? p.1.subs "c").bind (fun cs =>
          (alGet? cs.subs "g").map (fun g => g.core.st)))) =
      .ok (some 2, some 1) :=
  rfl

/-- **C9, amended.**  During a coupled node's `process_x_messages` at
`t`, every child recorded imminent that has no routed inbound bag is
called with `process_x_messages(t, ∅)`; under the empty bag the fired
transition is the child's *internal* one exactly when `t` equals the
child's own `t_next_self` (and its external one otherwise) — never the
confluent one; afterwards the node's `imminent` set and `mail` are
cleared. -/
theorem c9_imminent_children {St Rng : Type} (fuel : Nat) (t : Time) (x_bag : Bag)
    (c : SimCore St Rng) (subs : List (String × Simulator St Rng)) (rng : Rng)
    (sim' : Simulator St Rng) (rng' : Rng)
    (h : process_x_messages (fuel + 1) t x_bag (.mk c subs) rng = .ok (sim', rng'))
    (hsubs : subs.isEmpty = false)
    (hnd : c.imminent.Nodup)
    (name : String) (child : Simulator St Rng)
    (hname : name ∈ c.imminent)
    (hnr : name ∉ alKeys (get_submodels_x_bags c.external_input_couplings
      c.internal_couplings x_bag c.mail))
    (hchild : alGet? subs name = some child) :
    (∃ r r' child', process_x_messages fuel t [] child r = .ok (child', r') ∧
      alGet? sim'.subs name = some child' ∧
      ∃ e2, Time.sub t child.core.t_last = .ok e2 ∧
        child'.core.st = (if Time.beq t child.core.t_next_self = true then
            child.core.dyn.internal_transition child.core.st t r
          else child.core.dyn.external_transition child.core.st t e2 [] r).1) ∧
    sim'.core.imminent = [] ∧ sim'.core.mail = [] := by
  rw [process_x_messages] at h
  split at h
  · split at h
    · simp at h
    · rw [processXFinish] at h
      split at h
      · simp at h
      · split at h
        · rename_i hemp
          rw [hemp] at hsubs
          cases hsubs
        · split at h
          · simp at h
          · rename_i subs2 rng2 hsent
            injection h with h1
            injection h1 with hsim hrng
            subst hsim
            refine ⟨?_, rfl, rfl⟩
            unfold sent_x_bag_to_submodels at hsent
            have hmem : (name, ([] : Bag)) ∈
                (c.imminent.filter (fun n => !(alKeys (get_submodels_x_bags
                  c.external_input_couplings c.internal_couplings x_bag c.mail)).contains n)).map
                  (fun n => (n, ([] : Bag))) ++
                get_submodels_x_bags c.external_input_couplings c.internal_couplings
                  x_bag c.mail := by
              refine List.mem_append_left _ ?_
              refine List.mem_map.mpr ⟨name, ?_, rfl⟩
              refine List.mem_filter.mpr ⟨hname, ?_⟩
              simp [hnr]
            have hkeys : ((((c.imminent.filter (fun n => !(alKeys (get_submodels_x_bags
                c.external_input_couplings c.internal_couplings x_bag c.mail)).contains n)).map
                  (fun n => (n, ([] : Bag)))) ++
                get_submodels_x_bags c.external_input_couplings c.internal_couplings
                  x_bag c.mail).map Prod.fst).Nodup := by
              rw [List.map_append, List.map_map]
              have hcomp : (Prod.fst ∘ fun n : String => (n, ([] : Bag))) = id := rfl
              rw [hcomp, List.map_id]
              refine List.nodup_append.mpr ⟨?_, ?_, ?_⟩
              · exact List.Nodup.filter _ hnd
              · exact alSorted_nodup_keys _ (alSorted_get_submodels_x_bags _ _ _ _)
              · refine List.disjoint_left.mpr ?_
                intro a ha hb
                have hpa := (List.mem_filter.mp ha).2
                have hnotin : a ∉ alKeys (get_submodels_x_bags
                    c.external_input_couplings c.internal_couplings x_bag c.mail) := by
                  simpa using hpa
                exact hnotin (by simpa [alKeys] using hb)
            rcases runOnChildren_lookup (process_x_messages fuel t) _ _ _ _ _
              name [] child hsent hkeys hmem hchild with ⟨r, r', child', hcall, hlook⟩
            rcases processX_empty_dispatch fuel t child r child' r' hcall with
              ⟨e2, he2, hst⟩
            exact ⟨r, r', child', hcall, hlook, e2, he2, hst⟩
  · simp at h

end Exdsdevs

namespace Exdsdevs

/-- Witness for the amended C9: in `c9wP` the atomic child `k` is
imminent with no routed bag; processing the parent at `t = 5` calls `k`
with the empty bag, `k`'s internal transition fires (state `1`), and the
parent's `imminent`/`mail` are cleared. -/
theorem c9_imminent_children_witness :
    (∃ r r' child', process_x_messages 1 (.Value 5) [] c9wChild r = .ok (child', r') ∧
      alGet? (Simulator.mk (baseCore "q" trivDyn (.Value 5) .Inf .Inf)
        [("k", Simulator.mk { baseCore "q/k" markDyn (.Value 5) .Inf .Inf with
          st := 1 } [])]).subs "k" = some child' ∧
      ∃ e2, Time.sub (.Value 5) c9wChild.core.t_last = .ok e2 ∧
        child'.core.st = (if Time.beq (.Value 5) c9wChild.core.t_next_self = true then
            c9wChild.core.dyn.internal_transition c9wChild.core.st (.Value 5) r
          else c9wChild.core.dyn.external_transition c9wChild.core.st (.Value 5) e2 [] r).1) ∧
    (Simulator.mk (baseCore "q" trivDyn (.Value 5) .Inf .Inf)
      [("k", Simulator.mk { baseCore "q/k" markDyn (.Value 5) .Inf .Inf with
        st := 1 } [])]).core.imminent = [] ∧
    (Simulator.mk (baseCore "q" trivDyn (.Value 5) .Inf .Inf)
      [("k", Simulator.mk { baseCore "q/k" markDyn (.Value 5) .Inf .Inf with
        st := 1 } [])]).core.mail = [] :=
  c9_imminent_children 1 (.Value 5) []
    { baseCore "q" trivDyn (.Value 0) .Inf (.Value 5) with imminent := ["k"] }
    [("k", c9wChild)] ()
    (Simulator.mk (baseCore "q" trivDyn (.Value 5) .Inf .Inf)
      [("k", Simulator.mk { baseCore "q/k" markDyn (.Value 5) .Inf .Inf with
        st := 1 } [])]) ()
    rfl rfl (by simp) "k" c9wChild (by simp)
    (by simp [get_submodels_x_bags, routeIcs, routeEics, alKeys]) rfl

end Exdsdevs

namespace Exdsdevs

/-! ### Odometer lemmas (towards C8) -/

/-- Equal shapes give equal length products. -/
theorem prodLens_congr (v w : List VarDigit) (h : shapeOf v = shapeOf w) :
    prodLens v = prodLens w := by
  induction v generalizing w with
  | nil =>
    cases w with
    | nil => rfl
    | cons e rest2 => simp [shapeOf] at h
  | cons d rest ih =>
    cases w with
    | nil => simp [shapeOf] at h
    | cons e rest2 =>
      simp [shapeOf] at h
      rw [prodLens, prodLens, h.1.2, ih rest2 (by simp [shapeOf, h.2])]

/-- In-range digit positions give a value below the product. -/
theorem vecVal_lt (v : List VarDigit) (hb : ∀ d ∈ v, d.idx < d.len) :
    vecVal v < prodLens v := by
  induction v with
  | nil => simp [vecVal, prodLens]
  | cons d rest ih =>
    have hd : d.idx < d.len := hb d (by simp)
    have hr : vecVal rest < prodLens rest := ih (fun x hx => hb x (by simp [hx]))
    rw [vecVal, prodLens]
    calc d.idx * prodLens rest + vecVal rest
        < d.idx * prodLens rest + prodLens rest := by omega
      _ = (d.idx + 1) * prodLens rest := by ring
      _ ≤ d.len * prodLens rest := Nat.mul_le_mul_right _ (by omega)

/-- A vector of zero positions has value `0`. -/
theorem vecVal_zero (v : List VarDigit) (h : ∀ d ∈ v, d.idx = 0) : vecVal v = 0 := by
  induction v with
  | nil => rfl
  | cons d rest ih =>
    rw [vecVal, h d (by simp), ih (fun x hx => h x (by simp [hx]))]
    simp

/-- Unfolding lemma for `shapeOf` on a cons cell. -/
theorem shapeOf_cons (x : VarDigit) (v : List VarDigit) :
    shapeOf (x :: v) = (x.model_path, x.len) :: shapeOf v := rfl

/-- The odometer increment: shape and bounds are preserved; either every
digit wraps (carry out, the value was maximal and becomes `0`) or the
value increases by one. -/
theorem incVec_spec (v : List VarDigit) (hb : ∀ d ∈ v, d.idx < d.len) :
    shapeOf (incVec v).1 = shapeOf v ∧
    (∀ d ∈ (incVec v).1, d.idx < d.len) ∧
    ((incVec v).2 = 1 ∧ vecVal v + 1 = prodLens v ∧ vecVal (incVec v).1 = 0 ∨
     (incVec v).2 = 0 ∧ vecVal (incVec v).1 = vecVal v + 1) := by
  induction v with
  | nil =>
    refine ⟨rfl, by intro x hx; simp [incVec] at hx, Or.inl ⟨rfl, rfl, rfl⟩⟩
  | cons d rest ih =>
    have hd : d.idx < d.len := hb d (by simp)
    rcases ih (fun x hx => hb x (by simp [hx])) with ⟨hsh, hbd, hdisj⟩
    have hP : prodLens (incVec rest).1 = prodLens rest := prodLens_congr _ _ hsh
    rw [incVec]
    rcases hdisj with ⟨hc, hmax, hzero⟩ | ⟨hc, hsucc⟩
    · rw [hc]
      by_cases hw : d.idx + 1 = d.len
      · rw [if_pos (by simpa using hw)]
        refine ⟨by rw [shapeOf_cons, shapeOf_cons, hsh], ?_, Or.inl ⟨rfl, ?_, ?_⟩⟩
        · intro x hx
          rcases List.mem_cons.mp hx with h1 | h1
          · subst h1
            show (0 : Nat) < d.len
            omega
          · exact hbd x h1
        · rw [vecVal, prodLens]
          calc d.idx * prodLens rest + vecVal rest + 1
              = d.idx * prodLens rest + (vecVal rest + 1) := by omega
            _ = d.idx * prodLens rest + prodLens rest := by rw [hmax]
            _ = (d.idx + 1) * prodLens rest := by ring
            _ = d.len * prodLens rest := by rw [hw]
        · rw [vecVal, hzero]
          simp
      · rw [if_neg (by simpa using hw)]
        refine ⟨by rw [shapeOf_cons, shapeOf_cons, hsh], ?_, Or.inr ⟨rfl, ?_⟩⟩
        · intro x hx
          rcases List.mem_cons.mp hx with h1 | h1
          · subst h1; simp; omega
          · exact hbd x h1
        · rw [vecVal, vecVal, hzero, hP]
          simp
          calc (d.idx + 1) * prodLens rest
              = d.idx * prodLens rest + prodLens rest := by ring
            _ = d.idx * prodLens rest + (vecVal rest + 1) := by rw [hmax]
            _ = d.idx * prodLens rest + vecVal rest + 1 := by omega
    · rw [hc]
      have hne : ¬(d.idx + 0 = d.len) := by omega
      rw [if_neg (by simpa using hne)]
      refine ⟨by rw [shapeOf_cons, shapeOf_cons, hsh], ?_, Or.inr ⟨rfl, ?_⟩⟩
      · intro x hx
        rcases List.mem_cons.mp hx with h1 | h1
        · subst h1
          show d.idx + 0 < d.len
          omega
        · exact hbd x h1
      · rw [vecVal, vecVal, hsucc, hP]
        show d.idx * prodLens rest + (vecVal rest + 1) =
          d.idx * prodLens rest + vecVal rest + 1
        omega

end Exdsdevs

namespace Exdsdevs

/-- With a serving name table and in-range positions, the emission phase
succeeds and produces exactly the digit-determined emission. -/
theorem buildNextInit_ok (names : List (String × List String)) :
    ∀ (v : List VarDigit), namesOk names (shapeOf v) → (∀ d ∈ v, d.idx < d.len) →
      buildNextInit names v = .ok (emit names v) := by
  intro v
  induction v with
  | nil => intro _ _; rfl
  | cons d rest ih =>
    intro hok hb
    rcases hok (d.model_path, d.len) (by simp [shapeOf]) with ⟨ns, hget, hlen, hnd⟩
    have hlt : d.idx < ns.length := by
      rw [hlen]
      exact hb d (by simp)
    simp only [buildNextInit, hget, List.get?_eq_get hlt,
      ih (fun p hp => hok p (by simp [shapeOf] at hp ⊢; tauto))
        (fun x hx => hb x (by simp [hx]))]
    have hval : ((alGet? names d.model_path).getD []).getD d.idx "" =
        ns.get ⟨d.idx, hlt⟩ := by
      rw [hget]
      exact List.getD_eq_get ns "" hlt
    have hstep : emit names (d :: rest) =
        (d.model_path, ((alGet? names d.model_path).getD []).getD d.idx "") ::
          emit names rest := rfl
    rw [hstep, hval]

/-- Under a serving name table, equal emissions force equal values: the
digit positions are recovered from the emitted names. -/
theorem emit_eq_imp_vecVal (names : List (String × List String)) :
    ∀ (v w : List VarDigit), shapeOf v = shapeOf w →
      namesOk names (shapeOf v) →
      (∀ d ∈ v, d.idx < d.len) → (∀ d ∈ w, d.idx < d.len) →
      emit names v = emit names w → vecVal v = vecVal w := by
  intro v
  induction v with
  | nil =>
    intro w hsh _ _ _ _
    cases w with
    | nil => rfl
    | cons e rest2 => simp [shapeOf] at hsh
  | cons d rest ih =>
    intro w hsh hok hbv hbw hemit
    cases w with
    | nil => simp [shapeOf] at hsh
    | cons e rest2 =>
      simp only [shapeOf, List.map_cons, List.cons.injEq, Prod.mk.injEq] at hsh
      obtain ⟨⟨hpath, hlen⟩, hshr⟩ := hsh
      rcases hok (d.model_path, d.len) (by simp [shapeOf]) with ⟨ns, hget, hnslen, hnd⟩
      simp only [emit, List.map_cons, List.cons.injEq, Prod.mk.injEq] at hemit
      obtain ⟨⟨_, hname⟩, hemitr⟩ := hemit
      have hlt1 : d.idx < ns.length := by
        rw [hnslen]; exact hbv d (by simp)
      have hlt2 : e.idx < ns.length := by
        rw [hnslen, hlen]; exact hbw e (by simp)
      have hgete : alGet? names e.model_path = some ns := by rw [← hpath]; exact hget
      rw [hget, hgete] at hname
      simp only [Option.getD_some] at hname
      rw [List.getD_eq_get ns "" hlt1, List.getD_eq_get ns "" hlt2] at hname
      have hidx : d.idx = e.idx := by
        have h2 := (List.Nodup.get_inj_iff hnd).mp hname
        exact congrArg Fin.val h2
      have hrest : vecVal rest = vecVal rest2 :=
        ih rest2 (by simpa [shapeOf] using hshr)
          (fun p hp => hok p (by simp [shapeOf] at hp ⊢; tauto))
          (fun x hx => hbv x (by simp [hx])) (fun x hx => hbw x (by simp [hx])) hemitr
      rw [vecVal, vecVal, hidx, hrest,
        prodLens_congr rest rest2 (by simpa [shapeOf] using hshr)]

/-- In a map with pairwise-distinct keys, a stored pair is found. -/
theorem alGet?_of_nodup_mem {α : Type} (l : List (String × α)) (k : String) (v : α)
    (hnd : (l.map Prod.fst).Nodup) (hmem : (k, v) ∈ l) : alGet? l k = some v := by
  induction l with
  | nil => cases hmem
  | cons p rest ih =>
    obtain ⟨k0, v0⟩ := p
    rw [List.map_cons] at hnd
    rcases List.mem_cons.mp hmem with h1 | h1
    · injection h1 with h2 h3
      subst h2
      subst h3
      rw [alGet?, if_pos (by simp)]
    · have hne : k0 ≠ k := by
        intro he
        subst he
        exact (List.nodup_cons.mp hnd).1 (List.mem_map.mpr ⟨(k0, v), h1, rfl⟩)
      rw [alGet?, if_neg (by simpa using hne)]
      exact ih (List.nodup_cons.mp hnd).2 h1

end Exdsdevs

namespace Exdsdevs

/-- The enumeration loop: started with a cleared carry, positions summing
to `value`, and `k` combinations left (`value + k = product`), the
factory emits exactly `k` variants with indices `varnum, …, varnum+k−1`,
each emission determined by a digit state of value `value, value+1, …`,
and then reports exhaustion. -/
theorem enumerate_spec (names : List (String × List String))
    (values : List (String × List (String × Value))) :
    ∀ (k : Nat) (v : List VarDigit) (varnum : Nat),
      namesOk names (shapeOf v) →
      (∀ d ∈ v, d.idx < d.len) →
      vecVal v + k = prodLens v →
      ∃ L, enumerate (k + 1) ⟨values, names, v, 0, varnum⟩ = .ok L ∧
        L.length = k ∧
        L.map Prod.fst = List.range' varnum k ∧
        ∀ i (hi : i < L.length), ∃ w, shapeOf w = shapeOf v ∧
          (∀ d ∈ w, d.idx < d.len) ∧ vecVal w = vecVal v + i ∧
          (L.get ⟨i, hi⟩).2 = emit names w := by
  intro k
  induction k with
  | zero =>
    intro v varnum hok hb hk
    exact absurd hk (by have := vecVal_lt v hb; omega)
  | succ k ih =>
    intro v varnum hok hb hk
    have hbuild := buildNextInit_ok names v hok hb
    have hnv : next_variant ⟨values, names, v, 0, varnum⟩ =
        .ok (some (varnum, emit names v),
          ⟨values, names, (incVec v).1, (incVec v).2, varnum + 1⟩) := by
      simp [next_variant, hbuild]
    rcases incVec_spec v hb with ⟨hsh, hbd, hdisj⟩
    rcases hdisj with ⟨hc, hmax, hzero⟩ | ⟨hc, hsucc⟩
    · have hk0 : k = 0 := by omega
      subst hk0
      have hstop : enumerate 1 ⟨values, names, (incVec v).1, (incVec v).2, varnum + 1⟩ =
          .ok [] := by
        rw [enumerate, next_variant]
        simp [hc]
      refine ⟨[(varnum, emit names v)], ?_, rfl, rfl, ?_⟩
      · rw [enumerate, hnv]
        dsimp only
        rw [hstop]
      · intro i hi
        have hi0 : i = 0 := by
          simp at hi
          omega
        subst hi0
        exact ⟨v, rfl, hb, by omega, rfl⟩
    · have hk' : vecVal (incVec v).1 + k = prodLens (incVec v).1 := by
        rw [hsucc, prodLens_congr _ _ hsh]
        omega
      rcases ih (incVec v).1 (varnum + 1) (by rw [hsh]; exact hok) hbd hk' with
        ⟨L', hL', hlen', hfst', hget'⟩
      refine ⟨(varnum, emit names v) :: L', ?_, by simp [hlen'], ?_, ?_⟩
      · rw [enumerate, hnv]
        dsimp only
        rw [hc, hL']
      · rw [List.map_cons, hfst']
        rfl
      · intro i hi
        match i, hi with
        | 0, _ => exact ⟨v, rfl, hb, by omega, rfl⟩
        | j + 1, hj =>
          rcases hget' j (by simpa [hlen'] using hj) with ⟨w, hw1, hw2, hw3, hw4⟩
          refine ⟨w, by rw [hw1, hsh], hw2, by rw [hw3, hsucc]; omega, ?_⟩
          simpa using hw4

end Exdsdevs

namespace Exdsdevs

/-! ## Claim C8: the initial-variant enumerator -/

/-- **C8, counterexample.**  The claim says a zero-variant model
contributes a length-1 digit carrying its default, so the factor `0` is
replaced by `1`.  In the code a zero-variant model contributes a
length-*0* digit, and the very first `next_variant` call panics on
`.get(idx).unwrap()` — the dropped `default_init_values` map is never
consulted.  Concretely, with a single model `root` carrying no variants
the enumerator fails instead of yielding one variant. -/
theorem c8_counterexample :
    next_variant (mkInitVariantsFactory [("root", [])]) =
      .error (.unwrapNone "init_variants_names.get(idx)") :=
  rfl

/-- **C8, amended.**  For variant counts `[k_1, …, k_m]` that are all at
least 1 (distinct model paths, duplicate-free variant names), the
enumerator yields exactly `∏ k_i` variants, with `variant_index` running
`0, 1, …, ∏ k_i − 1`, each yielded variant map distinct, after which it
reports exhaustion (a `k_i = 0` digit instead panics, as the
counterexample shows). -/
theorem c8_enumerator (values : List (String × List (String × Value)))
    (hpaths : (values.map Prod.fst).Nodup)
    (hnd : ∀ p ∈ values, (alKeys p.2).Nodup)
    (hne : ∀ p ∈ values, alKeys p.2 ≠ []) :
    ∃ L, enumerate (prodLens (mkInitVariantsFactory values).init_vec + 1)
        (mkInitVariantsFactory values) = .ok L ∧
      L.length = prodLens (mkInitVariantsFactory values).init_vec ∧
      L.map Prod.fst = List.range (prodLens (mkInitVariantsFactory values).init_vec) ∧
      ∀ i j (hi : i < L.length) (hj : j < L.length), i ≠ j →
        (L.get ⟨i, hi⟩).2 ≠ (L.get ⟨j, hj⟩).2 := by
  have hkeysnames : ((values.map (fun p => (p.1, alKeys p.2))).map Prod.fst).Nodup := by
    rw [List.map_map]
    have : (Prod.fst ∘ fun p : String × List (String × Value) => (p.1, alKeys p.2)) =
        Prod.fst := rfl
    rw [this]
    exact hpaths
  have hok : namesOk (values.map (fun p => (p.1, alKeys p.2)))
      (shapeOf (get_init_vec (values.map (fun p => (p.1, alKeys p.2))))) := by
    intro p hp
    simp only [shapeOf, get_init_vec, List.map_map, List.mem_map,
      Function.comp_apply] at hp
    rcases hp with ⟨q, hq, rfl⟩
    refine ⟨alKeys q.2, ?_, rfl, hnd q hq⟩
    exact alGet?_of_nodup_mem _ _ _ hkeysnames (List.mem_map.mpr ⟨q, hq, rfl⟩)
  have hb : ∀ d ∈ get_init_vec (values.map (fun p => (p.1, alKeys p.2))),
      d.idx < d.len := by
    intro d hd
    simp only [get_init_vec, List.map_map, List.mem_map, Function.comp_apply] at hd
    rcases hd with ⟨q, hq, rfl⟩
    have := hne q hq
    simp only
    exact List.length_pos.mpr this
  have hz : vecVal (get_init_vec (values.map (fun p => (p.1, alKeys p.2)))) = 0 := by
    apply vecVal_zero
    intro d hd
    simp only [get_init_vec, List.map_map, List.mem_map, Function.comp_apply] at hd
    rcases hd with ⟨q, hq, rfl⟩
    rfl
  rcases enumerate_spec (values.map (fun p => (p.1, alKeys p.2))) values
      (prodLens (get_init_vec (values.map (fun p => (p.1, alKeys p.2)))))
      (get_init_vec (values.map (fun p => (p.1, alKeys p.2)))) 0 hok hb
      (by rw [hz]; omega) with ⟨L, hL, hlen, hfst, hget⟩
  refine ⟨L, hL, hlen, by rw [hfst, List.range_eq_range']; rfl, ?_⟩
  intro i j hi hj hij heq
  rcases hget i hi with ⟨wi, hwi1, hwi2, hwi3, hwi4⟩
  rcases hget j hj with ⟨wj, hwj1, hwj2, hwj3, hwj4⟩
  rw [hwi4, hwj4] at heq
  have hval := emit_eq_imp_vecVal (values.map (fun p => (p.1, alKeys p.2))) wi wj
    (hwi1.trans hwj1.symm) (by rw [hwi1]; exact hok) hwi2 hwj2 heq
  rw [hwi3, hwj3, hz] at hval
  omega

/-- Witness for the amended C8 at concrete variant tables `a ↦ {x, y}`,
`b ↦ {u}`: the product is `2` and the enumerator enumerates as the
theorem states. -/
theorem c8_enumerator_witness :
    (∃ L, enumerate (prodLens (mkInitVariantsFactory
        [("a", [("x", Value.null), ("y", Value.null)]),
         ("b", [("u", Value.null)])]).init_vec + 1)
        (mkInitVariantsFactory [("a", [("x", Value.null), ("y", Value.null)]),
          ("b", [("u", Value.null)])]) = .ok L ∧
      L.length = prodLens (mkInitVariantsFactory
        [("a", [("x", Value.null), ("y", Value.null)]),
         ("b", [("u", Value.null)])]).init_vec ∧
      L.map Prod.fst = List.range (prodLens (mkInitVariantsFactory
        [("a", [("x", Value.null), ("y", Value.null)]),
         ("b", [("u", Value.null)])]).init_vec) ∧
      ∀ i j (hi : i < L.length) (hj : j < L.length), i ≠ j →
        (L.get ⟨i, hi⟩).2 ≠ (L.get ⟨j, hj⟩).2) ∧
    prodLens (mkInitVariantsFactory [("a", [("x", Value.null), ("y", Value.null)]),
      ("b", [("u", Value.null)])]).init_vec = 2 :=
  ⟨c8_enumerator _ (by decide) (by decide) (by decide), by decide⟩

end Exdsdevs

namespace Exdsdevs

/-! ## Claim C10: init_static and completeness of the emitted variant maps -/

/-- The odometer increment never touches the model paths. -/
theorem incVec_paths :
    ∀ v : List VarDigit,
      (incVec v).1.map VarDigit.model_path = v.map VarDigit.model_path := by
  intro v
  induction v with
  | nil => rfl
  | cons d rest ih =>
    simp only [incVec]
    split <;> simp [ih]

/-- Lookup commutes with mapping over the stored values. -/
theorem alGet?_map_values {α β : Type} (g : α → β) :
    ∀ (l : List (String × α)) (k : String),
      alGet? (l.map (fun p => (p.1, g p.2))) k = (alGet? l k).map g := by
  intro l k
  induction l with
  | nil => rfl
  | cons p rest ih =>
    obtain ⟨k0, v0⟩ := p
    by_cases h : k0 == k
    · simp [alGet?, h]
    · simp [alGet?, h, ih]

/-- A key that occurs in the key list of a map resolves to some value. -/
theorem alGet?_isSome_of_mem_keys {α : Type} :
    ∀ (l : List (String × α)) (k : String),
      k ∈ alKeys l → ∃ v, alGet? l k = some v := by
  intro l
  induction l with
  | nil => intro k h; simp [alKeys] at h
  | cons p rest ih =>
    intro k h
    obtain ⟨k0, v0⟩ := p
    by_cases he : k0 == k
    · exact ⟨v0, by simp [alGet?, he]⟩
    · have hk : k ∈ alKeys rest := by
        simp [alKeys] at h ⊢
        rcases h with h | h
        · exact absurd (by simp [h]) he
        · exact h
      rcases ih k hk with ⟨v, hv⟩
      exact ⟨v, by simp [alGet?, he, hv]⟩

/-- What a successful emission phase guarantees about its output: the
emitted keys are exactly the digit paths in order, and every emitted name
was read out of the name table entry of its model. -/
theorem buildNextInit_pairs (names : List (String × List String)) :
    ∀ (v : List VarDigit) (nv : List (String × String)),
      buildNextInit names v = .ok nv →
      nv.map Prod.fst = v.map VarDigit.model_path ∧
      ∀ pr ∈ nv, ∃ ns, alGet? names pr.1 = some ns ∧ pr.2 ∈ ns := by
  intro v
  induction v with
  | nil =>
    intro nv h
    injection h with h1
    subst h1
    exact ⟨rfl, by intro pr hpr; cases hpr⟩
  | cons d rest ih =>
    intro nv h
    rw [buildNextInit] at h
    cases hg : alGet? names d.model_path with
    | none => rw [hg] at h; simp at h
    | some ns =>
      rw [hg] at h
      dsimp only at h
      cases hn : ns.get? d.idx with
      | none => rw [hn] at h; simp at h
      | some nm =>
        rw [hn] at h
        dsimp only at h
        cases hr : buildNextInit names rest with
        | error e => rw [hr] at h; simp at h
        | ok rest1 =>
          rw [hr] at h
          dsimp only at h
          injection h with h1
          subst h1
          rcases ih rest1 hr with ⟨hmap, hmem⟩
          refine ⟨by simp [hmap], ?_⟩
          intro pr hpr
          rcases List.mem_cons.mp hpr with h1 | h1
          · subst h1
            exact ⟨ns, hg, List.get?_mem hn⟩
          · exact hmem pr h1

/-- When every emitted pair resolves against the value table, the
silent-skip branches of the resolution loop never fire: the returned map
keeps exactly the emitted keys, in order. -/
theorem enumValues_keys (values : List (String × List (String × Value))) :
    ∀ nv : List (String × String),
      (∀ pr ∈ nv, ∃ variants, alGet? values pr.1 = some variants ∧
        pr.2 ∈ alKeys variants) →
      (enumValues values nv).map Prod.fst = nv.map Prod.fst := by
  intro nv
  induction nv with
  | nil => intro _; rfl
  | cons pr rest ih =>
    intro h
    rcases h pr (by simp) with ⟨variants, hv, hmem⟩
    rcases alGet?_isSome_of_mem_keys variants pr.2 hmem with ⟨val, hval⟩
    obtain ⟨model, name⟩ := pr
    simp [enumValues, hv, hval, ih (fun q hq => h q (by simp [hq]))]

/-- **C10.**  The claim has two halves.  The first is true of the code:
`init_static` resolves the node's full path in the chosen init-variant map
with `unwrap`, so a missing path is a panic and no default is substituted.
The second is false: for every factory produced by
`InitVariantsFactory::new` — whose name table is the key sets of the value
table and whose odometer digits are exactly the models of that table —
every map emitted by `next_enumerated_variant` resolves a value for
*every* model path (the silent-skip branches are unreachable), and the
well-formedness is preserved across calls, so no reachable factory state
ever yields an incomplete map. -/
theorem c10_init_requires_complete_map (St Rng : Type) :
    (∀ (fuel : Nat) (c : SimCore St Rng) (subs : List (String × Simulator St Rng))
        (name : String) (iv : List (String × Value)),
      alGet? iv name = none →
      init_static (fuel + 1) name iv (.mk c subs) =
        .error (.unwrapNone "init_variant.get(model_full_name)")) ∧
    (∀ values : List (String × List (String × Value)),
      factoryWF (mkInitVariantsFactory values)) ∧
    (∀ (f : InitVariantsFactory) (p : Option (Nat × List (String × Value)))
        (f1 : InitVariantsFactory),
      factoryWF f → next_enumerated_variant f = .ok (p, f1) →
      factoryWF f1 ∧ f1.init_variants_values = f.init_variants_values ∧
      ∀ (n : Nat) (m : List (String × Value)), p = some (n, m) →
        m.map Prod.fst = f.init_variants_values.map Prod.fst) := by
  refine ⟨?_, ?_, ?_⟩
  · intro fuel c subs name iv hmiss
    simp only [init_static, hmiss]
  · intro values
    refine ⟨rfl, ?_⟩
    show (get_init_vec (values.map (fun p => (p.1, alKeys p.2)))).map
        VarDigit.model_path = values.map Prod.fst
    rw [get_init_vec, List.map_map, List.map_map]
    rfl
  · intro f p f1 hwf h
    unfold next_enumerated_variant next_variant at h
    by_cases hc : f.carry == 0
    · cases hb : buildNextInit f.init_variants_names f.init_vec with
      | error e =>
        rw [if_pos hc, hb] at h
        simp at h
      | ok nv =>
        rw [if_pos hc, hb] at h
        dsimp only at h
        injection h with h1
        injection h1 with hp hf
        subst hp
        subst hf
        refine ⟨⟨hwf.1, ?_⟩, rfl, ?_⟩
        · show (incVec f.init_vec).1.map VarDigit.model_path =
            f.init_variants_values.map Prod.fst
          rw [incVec_paths]
          exact hwf.2
        · intro n m hm
          injection hm with hm1
          injection hm1 with hm2 hm3
          subst hm3
          have hpairs := buildNextInit_pairs f.init_variants_names f.init_vec nv hb
          have hcomp : ∀ pr ∈ nv, ∃ variants,
              alGet? f.init_variants_values pr.1 = some variants ∧
              pr.2 ∈ alKeys variants := by
            intro pr hpr
            rcases hpairs.2 pr hpr with ⟨ns, hget, hmem⟩
            rw [hwf.1, alGet?_map_values] at hget
            rcases Option.map_eq_some'.mp hget with ⟨variants, hv, hns⟩
            refine ⟨variants, hv, ?_⟩
            rw [hns]
            exact hmem
          show (enumValues f.init_variants_values nv).map Prod.fst =
            f.init_variants_values.map Prod.fst
          rw [enumValues_keys f.init_variants_values nv hcomp, hpairs.1]
          exact hwf.2
    · rw [if_neg hc] at h
      dsimp only at h
      injection h with h1
      injection h1 with hp hf
      subst hp
      subst hf
      refine ⟨hwf, rfl, ?_⟩
      intro n m hm
      cases hm

/-- **C10, counterexample.**  With the two-model table `c10Vals` the very
first `next_enumerated_variant` call emits a variant map holding an entry
for *both* model full paths — nothing is omitted, contradicting the
claim's assertion that the enumerator can hand `init_static` a map missing
some model's path. -/
theorem c10_counterexample :
    next_enumerated_variant (mkInitVariantsFactory c10Vals) =
      .ok (some (0, c10Map), c10F1) ∧
    c10Map.map Prod.fst = c10Vals.map Prod.fst :=
  ⟨rfl, rfl⟩

/-- Witness for C10 at the concrete table `c10Vals` and an empty
init-variant map fed to `init_static`. -/
theorem c10_init_requires_complete_map_witness :
    init_static 1 "c10root" [] c10Sim =
      .error (.unwrapNone "init_variant.get(model_full_name)") ∧
    factoryWF (mkInitVariantsFactory c10Vals) ∧
    factoryWF c10F1 ∧
    c10F1.init_variants_values =
      (mkInitVariantsFactory c10Vals).init_variants_values ∧
    c10Map.map Prod.fst =
      (mkInitVariantsFactory c10Vals).init_variants_values.map Prod.fst := by
  have h3 := (c10_init_requires_complete_map Nat Unit).2.2
    (mkInitVariantsFactory c10Vals) (some (0, c10Map)) c10F1
    ((c10_init_requires_complete_map Nat Unit).2.1 c10Vals) rfl
  exact ⟨(c10_init_requires_complete_map Nat Unit).1 0
      (baseCore "c10root" trivDyn (.Value 0) .Inf .Inf) [] "c10root" [] rfl,
    (c10_init_requires_complete_map Nat Unit).2.1 c10Vals,
    h3.1, h3.2.1, h3.2.2 0 c10Map rfl⟩

end Exdsdevs
